import Mathlib

/-!
# Discrete event simulation engine (`simulation.go`)

A shallow embedding of `Simulation`, `Schedule`, `Step`, `RunUntil` and `Ticker`.

* A `time.Time` is an instant without a monotonic clock reading, counted in nanoseconds and
  written `Int` (`After` is `>`); a `time.Duration` is an `Int` of nanoseconds.  The library
  keeps the seconds of an instant in an `int64`, and `Time.Add` saturates there: it is
  `timeAdd` below, which is `+` while the result is an instant the library can hold.
* `ScheduledEventID` is Go's `int`, taken at 64 bits and written `Int`: `nextID++` wraps.
* An `Action` is a Go closure over the engine and over state outside the
  engine.  Here an action is a code of type `α`; its effect is given by an
  interpreter `run : α → σ → Simulation α → σ × Simulation α`, where `σ` is the
  state outside the engine.  Such an action is not nil and returns; `Simulation.StepOrPanic`
  is `Step` with calls `e.Event.Action(s)` that may panic, as the call of a nil `Action` does.
* `eventQueue` and the entry type `scheduledEvent` are declared in a file that
  is not part of `simulation.go`; they are modelled from the specification.
-/

namespace events

/-- Two's complement wrap-around of a 64 bit Go `int`. -/
def wrapInt (n : Int) : Int := (n + 2 ^ 63) % 2 ^ 64 - 2 ^ 63

/-- Smallest value of a 64 bit Go `int`. -/
def minInt : Int := -(2 ^ 63)

/-- Largest value of a 64 bit Go `int`. -/
def maxInt : Int := 2 ^ 63 - 1

/-- The instants a `time.Time` can hold: the seconds fit an `int64`. -/
def inTime (t : Int) : Prop := -(2 ^ 63) * 1000000000 ≤ t ∧ t < 2 ^ 63 * 1000000000

instance inTime.dec (t : Int) : Decidable (inTime t) := by
  unfold inTime
  exact inferInstance

/-- The library's `func (t Time) Add(d Duration) Time`, on instants without a monotonic clock
reading:
`dsec := int64(d / 1e9); nsec := t.nsec() + int32(d%1e9)`,
`if nsec >= 1e9 { dsec++; nsec -= 1e9 } else if nsec < 0 { dsec--; nsec += 1e9 }`, and then
`addSec(dsec)`: `sum := t.ext + d; if (sum > t.ext) == (d > 0) { t.ext = sum } else if d > 0
{ t.ext = 1<<63 - 1 } else { t.ext = -(1<<63 - 1) }`.  Go's `/` and `%` truncate toward zero
(`Int.tdiv`, `Int.tmod`), and `int64` addition wraps. -/
def timeAdd (t d : Int) : Int :=
  let sec := t / 1000000000
  let nsec := t % 1000000000
  let dsec := Int.tdiv d 1000000000
  let nsec := nsec + Int.tmod d 1000000000
  let dsec := if nsec ≥ 1000000000 then dsec + 1 else if nsec < 0 then dsec - 1 else dsec
  let nsec :=
    if nsec ≥ 1000000000 then nsec - 1000000000
    else if nsec < 0 then nsec + 1000000000 else nsec
  let sum := wrapInt (sec + dsec)
  let sec :=
    if (sum > sec ↔ dsec > 0) then sum
    else if dsec > 0 then 2 ^ 63 - 1 else -(2 ^ 63 - 1)
  sec * 1000000000 + nsec

/-- The largest instant whose nanoseconds are zero: `time.Unix(1<<63 - 1 - unixToInternal, 0)`,
with seconds `1<<63 - 1`. -/
def topTime : Int := (2 ^ 63 - 1) * 1000000000

/-- The instant at which `Time.Add` saturates downwards, with seconds `-(1<<63 - 1)` and
nanoseconds zero. -/
def botTime : Int := -(2 ^ 63 - 1) * 1000000000

/-- Modelled from the spec: the type `ScheduledEvent` (its declaration is not in
`simulation.go`), `{ When: timestamp, Action: callable(EngineRef) }`. -/
structure ScheduledEvent (α : Type) where
  When : Int
  Action : α
deriving DecidableEq

/-- Modelled from the spec: the internal queue entry `scheduledEvent` (its
declaration is not in `simulation.go`), `{ Order: Int, Event: ScheduledEvent }`. -/
structure scheduledEvent (α : Type) where
  Order : Int
  Event : ScheduledEvent α
deriving DecidableEq

/-- Modelled from the spec: the queue's total order, `(When ascending, Order ascending)`
(the method `Less` of `eventQueue` is not in `simulation.go`). -/
def eventQueue.Less {α : Type} (a b : scheduledEvent α) : Prop :=
  a.Event.When < b.Event.When ∨ (a.Event.When = b.Event.When ∧ a.Order < b.Order)

instance eventQueue.decLess {α : Type} (a b : scheduledEvent α) :
    Decidable (eventQueue.Less a b) := by
  unfold eventQueue.Less
  exact inferInstance

/-- Modelled from the spec: the type `eventQueue` (not in `simulation.go`), "an ordered
container of pending scheduled events".  The pending entries are kept in the order in
which they were pushed. -/
abbrev eventQueue (α : Type) := List (scheduledEvent α)

/-- Modelled from the spec: `Len()`, the current count. -/
def eventQueue.Len {α : Type} (q : eventQueue α) : Nat := q.length

/-- Modelled from the spec: `Push(entry)`, inserts the entry; no constraint on `When`. -/
def eventQueue.Push {α : Type} (q : eventQueue α) (e : scheduledEvent α) : eventQueue α :=
  q ++ [e]

/-- Modelled from the spec: `Pop()`, "removes and returns the minimum entry; fails/undefined
if empty".  The result is the minimum for `Less` (the earliest pushed one among entries with
equal keys) and the queue without it; `none` on the empty queue. -/
def eventQueue.Pop {α : Type} : eventQueue α → Option (scheduledEvent α × eventQueue α)
  | [] => none
  | e :: q =>
    match eventQueue.Pop q with
    | none => some (e, [])
    | some (m, r) => if eventQueue.Less m e then some (m, e :: r) else some (e, q)

/-- Modelled from the spec: `Peek()`, "returns the minimum entry without removing it; same
precondition". -/
def eventQueue.Peek {α : Type} (q : eventQueue α) : Option (scheduledEvent α) :=
  (eventQueue.Pop q).map Prod.fst

/-- The struct `Simulation`. -/
structure Simulation (α : Type) where
  Now : Int
  nextID : Int
  queue : eventQueue α
deriving DecidableEq

/-- The effect of running an action: a function of the action's code, the state outside
the engine and the engine. -/
abbrev Runner (α σ : Type) := α → σ → Simulation α → σ × Simulation α

/-- `func (s *Simulation) Schedule(e ScheduledEvent)`. -/
def Simulation.Schedule {α : Type} (s : Simulation α) (e : ScheduledEvent α) : Simulation α :=
  let id := s.nextID
  { s with queue := s.queue.Push { Order := id, Event := e }, nextID := wrapInt (s.nextID + 1) }

/-- The clock at the moment `Step` invokes the action of an entry due at `w`:
`if e.Event.When.After(s.Now) { s.Now = e.Event.When }`. -/
def Simulation.advance {α : Type} (s : Simulation α) (w : Int) : Simulation α :=
  if w > s.Now then { s with Now := w } else s

/-- `func (s *Simulation) Step() bool`, with actions that are not nil and that return (for
a nil `Action` and for actions that panic see `Simulation.StepOrPanic`).  The result is `none`
when `Pop` is called on an empty queue. -/
def Simulation.Step {α σ : Type} (run : Runner α σ) (x : σ) (s : Simulation α) :
    Option (Bool × σ × Simulation α) :=
  if s.queue.Len = 0 then some (false, x, s)
  else
    match s.queue.Pop with
    | none => none
    | some (e, q) =>
      let s1 := ({ s with queue := q } : Simulation α).advance e.Event.When
      let r := run e.Event.Action x s1
      some (true, r.1, r.2)

/-- One firing, as seen from outside `Step`: the entry that was popped, the value of `Now`
when its action was invoked, and the engine when `Step` returned. -/
structure Firing (α : Type) where
  entry : scheduledEvent α
  clock : Int
  after : Simulation α
deriving DecidableEq

/-- The firing made by a `Step` call that took the engine from `s` to `s'`: the entry at the
front of the queue of `s`. -/
def Simulation.firing {α : Type} (s s' : Simulation α) : List (Firing α) :=
  match s.queue.Peek with
  | none => []
  | some m => [{ entry := m, clock := (s.advance m.Event.When).Now, after := s' }]

/-- What a loop of `Step` calls has done when it returns or is cut short: the firings made,
the state outside the engine, the engine, and whether the loop has returned (`false` when the
bound on the number of iterations was reached first). -/
structure Run (α σ : Type) where
  fired : List (Firing α)
  ext : σ
  sim : Simulation α
  returned : Bool

/-- `func (s *Simulation) RunUntil(until time.Time)`, with the loop cut short after `fuel`
iterations.  The result is `none` when the queue is read while empty. -/
def Simulation.RunUntil {α σ : Type} (run : Runner α σ) (horizon : Int) :
    Nat → σ → Simulation α → Option (Run α σ)
  | 0, x, s => some ⟨[], x, s, false⟩
  | fuel + 1, x, s =>
    if s.queue.Len = 0 then some ⟨[], x, s, true⟩
    else
      match s.queue.Peek with
      | none => none
      | some m =>
        if m.Event.When > horizon then some ⟨[], x, s, true⟩
        else
          match s.Step run x with
          | none => none
          | some (false, x', s') => some ⟨[], x', s', true⟩
          | some (true, x', s') =>
            (Simulation.RunUntil run horizon fuel x' s').map
              (fun r => { r with fired := s.firing s' ++ r.fired })

/-- A caller's loop `for s.Step() {}`: `Step` is called until it returns false, the loop cut
short after `fuel` calls. -/
def Simulation.StepAll {α σ : Type} (run : Runner α σ) :
    Nat → σ → Simulation α → Option (Run α σ)
  | 0, x, s => some ⟨[], x, s, false⟩
  | fuel + 1, x, s =>
    match s.Step run x with
    | none => none
    | some (false, x', s') => some ⟨[], x', s', true⟩
    | some (true, x', s') =>
      (Simulation.StepAll run fuel x' s').map
        (fun r => { r with fired := s.firing s' ++ r.fired })

/-- A caller making `n` calls of `Step` in a row, whatever they return. -/
def Simulation.StepN {α σ : Type} (run : Runner α σ) :
    Nat → σ → Simulation α → Option (Run α σ)
  | 0, x, s => some ⟨[], x, s, true⟩
  | n + 1, x, s =>
    match s.Step run x with
    | none => none
    | some (b, x', s') =>
      (Simulation.StepN run n x' s').map
        (fun r => { r with fired := (if b then s.firing s' else []) ++ r.fired })

/-- A caller making the `Schedule` calls `es` in a row. -/
def Simulation.ScheduleAll {α : Type} (s : Simulation α) (es : List (ScheduledEvent α)) :
    Simulation α :=
  es.foldl Simulation.Schedule s

/-- The closures of the engine: those of the caller, with codes in `β`, and the closure
`nextRun` that `Ticker` makes from a duration and a callback. -/
inductive Act (β : Type) where
  | user (b : β)
  | nextRun (duration : Int) (f : β)
deriving DecidableEq

/-- The effect of a closure: a caller's closure runs as the caller says; `nextRun` is
`f(s); s.Schedule(ScheduledEvent{When: s.Now.Add(duration), Action: nextRun})`. -/
def runAct {β σ : Type} (u : β → σ → Simulation (Act β) → σ × Simulation (Act β)) :
    Runner (Act β) σ
  | Act.user b, x, s => u b x s
  | Act.nextRun duration f, x, s =>
    let r := u f x s
    (r.1, r.2.Schedule { When := timeAdd r.2.Now duration, Action := Act.nextRun duration f })

/-- `func Ticker(sim *Simulation, start time.Time, duration time.Duration, f func(s *Simulation))`. -/
def Ticker {β : Type} (sim : Simulation (Act β)) (start : Int) (duration : Int) (f : β) :
    Simulation (Act β) :=
  sim.Schedule { When := start, Action := Act.nextRun duration f }

/-- The zero value `Simulation{}` with its clock set to `now`. -/
def Simulation.new {α : Type} (now : Int) : Simulation α :=
  { Now := now, nextID := 0, queue := [] }

/-- The entries that a run of `Schedule` calls pushes when it starts with `nextID = n`: the
k-th event carries the k-th value that `nextID` takes. -/
def stamp {α : Type} : Int → List (ScheduledEvent α) → List (scheduledEvent α)
  | _, [] => []
  | n, e :: es => { Order := n, Event := e } :: stamp (wrapInt (n + 1)) es

/-- The stable sort by `When`: events are put in non-decreasing order of `When`, and events
with the same `When` keep the order they have in the list. -/
def stableSortByWhen {α : Type} (es : List (ScheduledEvent α)) : List (ScheduledEvent α) :=
  es.insertionSort (fun a b => a.When ≤ b.When)

/-- An action that writes its code to a log kept outside the engine, and leaves the engine
as it is. -/
def logCode {α : Type} : Runner α (List α) := fun a x s => (x ++ [a], s)

/-- The engine of the example scenarios: on `Simulation{}`, events with `When = 10`, `5` and
`5` are scheduled in that order; their actions have the codes `0`, `1` and `2`. -/
def scenario : Simulation Nat :=
  (Simulation.new 0).ScheduleAll [⟨10, 0⟩, ⟨5, 1⟩, ⟨5, 2⟩]

/-- The codes of the actions fired in a run, in firing order. -/
def Run.codes {α σ : Type} (r : Run α σ) : List α :=
  r.fired.map (fun f => f.entry.Event.Action)

/-- An action `func(s *Simulation) { s.Now = t }`, with the instant `t` as its code. -/
def setNow {σ : Type} : Runner Int σ := fun t x s => (x, { s with Now := t })

/-- Actions with codes in `Option Int`: the code `some w` is a closure
`func(s *Simulation) { s.Schedule(ScheduledEvent{When: w, Action: idle}) }`, and `none` is the
closure `idle`, which does nothing. -/
def scheduleCode {σ : Type} : Runner (Option Int) σ
  | none, x, s => (x, s)
  | some w, x, s => (x, s.Schedule { When := w, Action := none })

/-- Callbacks with codes in `Nat`: the callback `0` writes the value of `Now` to a log kept
outside the engine, the other callbacks do nothing. -/
def callbacks : Nat → List Int → Simulation (Act Nat) → List Int × Simulation (Act Nat)
  | 0, x, s => (x ++ [s.Now], s)
  | _ + 1, x, s => (x, s)

/-- Callbacks that write the value of `Now` to a log kept outside the engine and then move the
clock: `func(s *Simulation) { log = append(log, s.Now); s.Now = s.Now.Add(100) }`. -/
def logNowAndJump {β : Type} :
    β → List Int → Simulation (Act β) → List Int × Simulation (Act β) :=
  fun _ x s => (x ++ [s.Now], { s with Now := timeAdd s.Now 100 })

/-- Following the spec's words: `RunUntil(until)` "repeatedly, while the queue is non-empty and
the minimum entry's `When` is not after `until`, calls `Step()`"; what `Step` returns is not
looked at.  The loop is cut short after `fuel` iterations as in `Simulation.RunUntil`. -/
def Simulation.RunUntilSpec {α σ : Type} (run : Runner α σ) (horizon : Int) :
    Nat → σ → Simulation α → Option (Run α σ)
  | 0, x, s => some ⟨[], x, s, false⟩
  | fuel + 1, x, s =>
    if s.queue.Len = 0 then some ⟨[], x, s, true⟩
    else
      match s.queue.Peek with
      | none => none
      | some m =>
        if m.Event.When > horizon then some ⟨[], x, s, true⟩
        else
          match s.Step run x with
          | none => none
          | some (_, x', s') =>
            (Simulation.RunUntilSpec run horizon fuel x' s').map
              (fun r => { r with fired := s.firing s' ++ r.fired })

/-- The engines reached from the engine `s₀` by `Schedule` and `Step` calls, with the number of
`Schedule` calls made on the way, those made by actions included.  A `Step` on an empty queue
changes nothing.  A `Step` on a queue that is not empty pops the minimum `m`, sets the clock
and runs the action of `m`, which makes the `Schedule` calls `es` and may assign `Now`. -/
inductive Reach {α σ : Type} (run : Runner α σ) (s₀ : Simulation α) :
    Nat → Simulation α → Prop where
  | start : Reach run s₀ 0 s₀
  | schedule {n : Nat} {s : Simulation α} (e : ScheduledEvent α) :
      Reach run s₀ n s → Reach run s₀ (n + 1) (s.Schedule e)
  | step {n : Nat} {s : Simulation α} (x : σ) (m : scheduledEvent α) (q : eventQueue α)
      (es : List (ScheduledEvent α)) (t : Int) :
      Reach run s₀ n s → s.queue.Pop = some (m, q) →
      (run m.Event.Action x (({ s with queue := q } : Simulation α).advance m.Event.When)).2 =
        { (({ s with queue := q } : Simulation α).advance m.Event.When).ScheduleAll es with
          Now := t } →
      Reach run s₀ (n + es.length)
        (run m.Event.Action x (({ s with queue := q } : Simulation α).advance m.Event.When)).2

/-- The state of an engine on which `n` calls of `Schedule` have been made without `nextID`
wrapping: `nextID` is `n`, every queued entry has an `Order` from `0` up to `nextID`, and no two
queued entries share an `Order`. -/
def WellNumbered {α : Type} (s : Simulation α) (n : Nat) : Prop :=
  s.nextID = n ∧ (∀ y ∈ s.queue, 0 ≤ y.Order ∧ y.Order < s.nextID) ∧
    s.queue.Pairwise (fun a b => a.Order ≠ b.Order)

/-- What the call `e.Event.Action(s)` in `Step` comes to: the action returns, or the call
panics (the `Action` is nil, or the action itself panics); in either case with the state
outside the engine and the engine as the call leaves them. -/
inductive Called (α σ : Type) where
  | returns (x : σ) (s : Simulation α)
  | panics (x : σ) (s : Simulation α)
deriving DecidableEq

/-- The effect of calling an action that may be nil or may panic: a function of the action's
code, the state outside the engine and the engine. -/
abbrev Caller (α σ : Type) := α → σ → Simulation α → Called α σ

/-- What a call of `Step` comes to: it returns a boolean, or it panics; in either case with
the state outside the engine and the engine as the call leaves them. -/
inductive StepEnd (α σ : Type) where
  | returns (b : Bool) (x : σ) (s : Simulation α)
  | panics (x : σ) (s : Simulation α)
deriving DecidableEq

/-- `func (s *Simulation) Step() bool`, with actions that may be nil or may panic: a panic in
the call `e.Event.Action(s)` leaves `Step` before `return true`, after the entry was popped
and the clock was set.  The result is `none` when `Pop` is called on an empty queue. -/
def Simulation.StepOrPanic {α σ : Type} (call : Caller α σ) (x : σ) (s : Simulation α) :
    Option (StepEnd α σ) :=
  if s.queue.Len = 0 then some (StepEnd.returns false x s)
  else
    match s.queue.Pop with
    | none => none
    | some (e, q) =>
      let s1 := ({ s with queue := q } : Simulation α).advance e.Event.When
      match call e.Event.Action x s1 with
      | Called.returns x' s' => some (StepEnd.returns true x' s')
      | Called.panics x' s' => some (StepEnd.panics x' s')

/-- The calls of actions that are not nil and that return, their effect given by `run`. -/
def Caller.ofRunner {α σ : Type} (run : Runner α σ) : Caller α σ :=
  fun a x s => Called.returns (run a x s).1 (run a x s).2

/-- Actions with codes in `Option α`: `none` is the nil `Action`, and calling it panics;
`some a` is an action that writes `a` to a log kept outside the engine and returns. -/
def logOrNil {α : Type} : Caller (Option α) (List α)
  | none, x, s => Called.panics x s
  | some a, x, s => Called.returns (x ++ [a]) s

/-- Actions with codes in `List Int`: the code `ws` is a closure that writes the value of `Now`
to a log kept outside the engine and then schedules, for each `w` of `ws` in turn, an event due
at `w` whose action has the code `[]`:
`func(s *Simulation) { log = append(log, s.Now); for _, w := range ws { s.Schedule(...) } }`. -/
def scheduleEach : Runner (List Int) (List Int) :=
  fun ws x s => (x ++ [s.Now], s.ScheduleAll (ws.map (fun w => ⟨w, []⟩)))

/-! ## Instants -/

section instants

theorem tmod_bounds (d : Int) :
    -1000000000 < Int.tmod d 1000000000 ∧ Int.tmod d 1000000000 < 1000000000 := by
  refine ⟨?_, Int.tmod_lt_of_pos d (by norm_num)⟩
  rcases le_or_lt 0 d with h | h
  · have := Int.tmod_nonneg 1000000000 h
    omega
  · have h1 := Int.tdiv_add_tmod d 1000000000
    have h2 := Int.tdiv_add_tmod (-d) 1000000000
    have h3 := Int.tmod_nonneg 1000000000 (show 0 ≤ -d by omega)
    have h4 := Int.tmod_lt_of_pos (-d) (show (0 : Int) < 1000000000 by norm_num)
    rw [Int.neg_tdiv] at h2
    omega

/-- `Time.Add` is addition as long as the result is an instant a `time.Time` can hold. -/
theorem timeAdd_exact (t d : Int) (ht : inTime t) (htd : inTime (t + d)) :
    timeAdd t d = t + d := by
  obtain ⟨h1, h2⟩ := ht
  obtain ⟨h3, h4⟩ := htd
  have hd := Int.tdiv_add_tmod d 1000000000
  obtain ⟨hm1, hm2⟩ := tmod_bounds d
  unfold timeAdd wrapInt
  generalize Int.tdiv d 1000000000 = q at *
  generalize Int.tmod d 1000000000 = m at *
  simp only []
  split_ifs <;> omega

end instants

/-! ## The queue -/

section queue

variable {α : Type}

theorem Len_eq_zero_iff (q : eventQueue α) : q.Len = 0 ↔ q = [] := by
  simp [eventQueue.Len]

theorem Pop_isSome_of_ne_nil : ∀ (q : eventQueue α), q ≠ [] → ∃ m r, q.Pop = some (m, r)
  | [], h => absurd rfl h
  | e :: q, _ => by
    cases hq : eventQueue.Pop q with
    | none => exact ⟨e, [], by simp [eventQueue.Pop, hq]⟩
    | some p =>
      obtain ⟨m, r⟩ := p
      by_cases hl : eventQueue.Less m e
      · exact ⟨m, e :: r, by simp [eventQueue.Pop, hq, hl]⟩
      · exact ⟨e, q, by simp [eventQueue.Pop, hq, hl]⟩

theorem Pop_eq_none_iff (q : eventQueue α) : q.Pop = none ↔ q = [] := by
  constructor
  · intro h
    by_contra hne
    obtain ⟨m, r, hmr⟩ := Pop_isSome_of_ne_nil q hne
    rw [h] at hmr
    cases hmr
  · rintro rfl
    rfl

/-- What `Pop` does on a queue with a first pushed entry. -/
theorem Pop_cons_cases (e : scheduledEvent α) (q : eventQueue α) {m : scheduledEvent α}
    {r : eventQueue α} (h : eventQueue.Pop (e :: q) = some (m, r)) :
    (m = e ∧ r = q ∧ ∀ m' r', q.Pop = some (m', r') → ¬ eventQueue.Less m' e) ∨
    (∃ r', q.Pop = some (m, r') ∧ r = e :: r' ∧ eventQueue.Less m e) := by
  cases hq : eventQueue.Pop q with
  | none =>
    have hnil : q = [] := (Pop_eq_none_iff q).1 hq
    simp [eventQueue.Pop, hq] at h
    left
    refine ⟨h.1.symm, ?_, ?_⟩
    · rw [hnil]; exact h.2
    · intro m' r' h'
      cases h'
  | some p =>
    obtain ⟨m0, r0⟩ := p
    by_cases hl : eventQueue.Less m0 e
    · simp [eventQueue.Pop, hq, hl] at h
      right
      exact ⟨r0, by rw [h.1], h.2.symm, h.1 ▸ hl⟩
    · simp [eventQueue.Pop, hq, hl] at h
      left
      refine ⟨h.1.symm, h.2.symm, ?_⟩
      intro m' r' h'
      cases h'
      exact hl

theorem Pop_perm : ∀ (q : eventQueue α) {m : scheduledEvent α} {r : eventQueue α},
    q.Pop = some (m, r) → List.Perm q (m :: r)
  | [], _, _, h => by cases h
  | e :: q, m, r, h => by
    rcases Pop_cons_cases e q h with ⟨rfl, rfl, _⟩ | ⟨r', hq, rfl, _⟩
    · exact List.Perm.refl _
    · exact ((Pop_perm q hq).cons e).trans (List.Perm.swap m e r')

theorem Pop_length (q : eventQueue α) {m : scheduledEvent α} {r : eventQueue α}
    (h : q.Pop = some (m, r)) : q.length = r.length + 1 := by
  simpa using (Pop_perm q h).length_eq

theorem Less_trans {a b c : scheduledEvent α} (hab : eventQueue.Less a b)
    (hbc : eventQueue.Less b c) : eventQueue.Less a c := by
  unfold eventQueue.Less at *
  omega

theorem Less_irrefl (a : scheduledEvent α) : ¬ eventQueue.Less a a := by
  unfold eventQueue.Less
  omega

theorem Less_asymm {a b : scheduledEvent α} (hab : eventQueue.Less a b) :
    ¬ eventQueue.Less b a := by
  unfold eventQueue.Less at *
  omega

theorem not_Less_trans {a b c : scheduledEvent α} (hab : ¬ eventQueue.Less b a)
    (hbc : ¬ eventQueue.Less c b) : ¬ eventQueue.Less c a := by
  unfold eventQueue.Less at *
  omega

theorem When_le_of_not_Less {a b : scheduledEvent α} (h : ¬ eventQueue.Less b a) :
    a.Event.When ≤ b.Event.When := by
  unfold eventQueue.Less at h
  omega

/-- The entry returned by `Pop` is a minimum of the queue. -/
theorem Pop_min : ∀ (q : eventQueue α) {m : scheduledEvent α} {r : eventQueue α},
    q.Pop = some (m, r) → ∀ y ∈ q, ¬ eventQueue.Less y m
  | [], _, _, h => by cases h
  | e :: q, m, r, h => by
    intro y hy
    rcases Pop_cons_cases e q h with ⟨rfl, rfl, hmin⟩ | ⟨r', hq, rfl, hl⟩
    · rcases List.mem_cons.1 hy with rfl | hy
      · exact Less_irrefl _
      · obtain ⟨m', r', hq⟩ := Pop_isSome_of_ne_nil r (List.ne_nil_of_mem hy)
        exact not_Less_trans (hmin m' r' hq) (Pop_min r hq y hy)
    · rcases List.mem_cons.1 hy with rfl | hy
      · exact Less_asymm hl
      · exact Pop_min q hq y hy

/-- The entry returned by `Pop` was in the queue. -/
theorem Pop_mem (q : eventQueue α) {m : scheduledEvent α} {r : eventQueue α}
    (h : q.Pop = some (m, r)) : m ∈ q :=
  (Pop_perm q h).symm.subset (List.mem_cons_self m r)

/-- Entries that `Pop` leaves in the queue keep their relative order: filtering by a
predicate that rejects the popped entry gives the same list before and after. -/
theorem Pop_filter (p : scheduledEvent α → Bool) : ∀ (q : eventQueue α) {m : scheduledEvent α}
    {r : eventQueue α}, q.Pop = some (m, r) → p m = false → r.filter p = q.filter p
  | [], _, _, h, _ => by cases h
  | e :: q, m, r, h, hp => by
    rcases Pop_cons_cases e q h with ⟨rfl, rfl, _⟩ | ⟨r', hq, rfl, _⟩
    · simp [List.filter_cons, hp]
    · simp [List.filter_cons, Pop_filter p q hq hp]

/-- The entries that `Pop` leaves in the queue are the queue with one entry taken out. -/
theorem Pop_sublist : ∀ (q : eventQueue α) {m : scheduledEvent α} {r : eventQueue α},
    q.Pop = some (m, r) → List.Sublist r q
  | [], _, _, h => by cases h
  | e :: q, m, r, h => by
    rcases Pop_cons_cases e q h with ⟨rfl, rfl, _⟩ | ⟨r', hq, rfl, _⟩
    · exact List.sublist_cons_self _ _
    · exact (Pop_sublist q hq).cons₂ e

end queue

/-! ## The engine -/

section engine

variable {α σ : Type}

theorem Step_of_nil (run : Runner α σ) (x : σ) (s : Simulation α) (h : s.queue = []) :
    s.Step run x = some (false, x, s) := by
  simp [Simulation.Step, eventQueue.Len, h]

theorem Step_of_Pop (run : Runner α σ) (x : σ) (s : Simulation α) {e : scheduledEvent α}
    {q : eventQueue α} (h : s.queue.Pop = some (e, q)) :
    s.Step run x = some (true,
      (run e.Event.Action x (({ s with queue := q } : Simulation α).advance e.Event.When)).1,
      (run e.Event.Action x (({ s with queue := q } : Simulation α).advance e.Event.When)).2) := by
  have hne : s.queue ≠ [] := fun h0 => by rw [h0] at h; cases h
  have hlen : ¬ (s.queue.Len = 0) := fun h0 => hne ((Len_eq_zero_iff _).1 h0)
  simp [Simulation.Step, hlen, h]

/-- `Step` always returns, and what it returns is fixed by the queue. -/
theorem Step_total (run : Runner α σ) (x : σ) (s : Simulation α) :
    (s.queue = [] ∧ s.Step run x = some (false, x, s)) ∨
    (∃ m q, s.queue.Pop = some (m, q) ∧ s.Step run x = some (true,
      (run m.Event.Action x (({ s with queue := q } : Simulation α).advance m.Event.When)).1,
      (run m.Event.Action x (({ s with queue := q } : Simulation α).advance m.Event.When)).2)) := by
  by_cases h : s.queue = []
  · exact Or.inl ⟨h, Step_of_nil run x s h⟩
  · obtain ⟨m, q, hpop⟩ := Pop_isSome_of_ne_nil s.queue h
    exact Or.inr ⟨m, q, hpop, Step_of_Pop run x s hpop⟩

theorem advance_queue (s : Simulation α) (w : Int) : (s.advance w).queue = s.queue := by
  unfold Simulation.advance
  split <;> rfl

theorem advance_nextID (s : Simulation α) (w : Int) : (s.advance w).nextID = s.nextID := by
  unfold Simulation.advance
  split <;> rfl

theorem advance_Now (s : Simulation α) (w : Int) : (s.advance w).Now = max s.Now w := by
  unfold Simulation.advance
  split
  · rename_i h
    simp only []
    omega
  · rename_i h
    omega

theorem firing_of_Pop (s s' : Simulation α) {e : scheduledEvent α} {q : eventQueue α}
    (h : s.queue.Pop = some (e, q)) :
    s.firing s' = [{ entry := e, clock := max s.Now e.Event.When, after := s' }] := by
  simp [Simulation.firing, eventQueue.Peek, h, advance_Now]

theorem Schedule_queue (s : Simulation α) (e : ScheduledEvent α) :
    (s.Schedule e).queue = s.queue ++ [{ Order := s.nextID, Event := e }] := rfl

theorem Schedule_Now (s : Simulation α) (e : ScheduledEvent α) : (s.Schedule e).Now = s.Now := rfl

theorem Schedule_nextID (s : Simulation α) (e : ScheduledEvent α) :
    (s.Schedule e).nextID = wrapInt (s.nextID + 1) := rfl

theorem ScheduleAll_nil (s : Simulation α) : s.ScheduleAll [] = s := rfl

theorem ScheduleAll_cons (s : Simulation α) (e : ScheduledEvent α) (es : List (ScheduledEvent α)) :
    s.ScheduleAll (e :: es) = (s.Schedule e).ScheduleAll es := rfl

theorem ScheduleAll_Now (s : Simulation α) (es : List (ScheduledEvent α)) :
    (s.ScheduleAll es).Now = s.Now := by
  induction es generalizing s with
  | nil => rfl
  | cons e es ih => rw [ScheduleAll_cons, ih, Schedule_Now]

theorem ScheduleAll_queue_events (s : Simulation α) (es : List (ScheduledEvent α)) :
    (s.ScheduleAll es).queue.map (fun y => y.Event) = s.queue.map (fun y => y.Event) ++ es := by
  induction es generalizing s with
  | nil => simp [ScheduleAll_nil]
  | cons e es ih => rw [ScheduleAll_cons, ih, Schedule_queue]; simp

theorem ScheduleAll_queue_length (s : Simulation α) (es : List (ScheduledEvent α)) :
    (s.ScheduleAll es).queue.length = s.queue.length + es.length := by
  have h := congrArg List.length (ScheduleAll_queue_events s es)
  simpa using h

/-- When the actions leave the queue as it is, `Step` called until it returns false returns
after one call per queued entry and one more; the entries come out smallest first. -/
theorem StepAll_drain (run : Runner α σ) (hq : ∀ a x s, (run a x s).2.queue = s.queue) :
    ∀ (n : Nat) (x : σ) (s : Simulation α), s.queue.length = n →
      ∃ r, s.StepAll run (n + 1) x = some r ∧ r.returned = true ∧ r.sim.queue = [] ∧
        (r.fired.map (fun f => f.entry)).Perm s.queue ∧
        (r.fired.map (fun f => f.entry)).Pairwise (fun a b => ¬ eventQueue.Less b a)
  | 0, x, s, hn => by
    have hnil : s.queue = [] := List.length_eq_zero.1 hn
    refine ⟨⟨[], x, s, true⟩, ?_, rfl, hnil, ?_, ?_⟩
    · simp [Simulation.StepAll, Step_of_nil run x s hnil]
    · simp [hnil]
    · simp
  | n + 1, x, s, hn => by
    have hne : s.queue ≠ [] := by
      intro h0
      rw [h0] at hn
      cases hn
    obtain ⟨m, q, hpop⟩ := Pop_isSome_of_ne_nil s.queue hne
    have hstep := Step_of_Pop run x s hpop
    have hlen : q.length = n := by
      have := Pop_length s.queue hpop
      omega
    have hq1 : (run m.Event.Action x
        (({ s with queue := q } : Simulation α).advance m.Event.When)).2.queue = q := by
      rw [hq, advance_queue]
    generalize run m.Event.Action x
      (({ s with queue := q } : Simulation α).advance m.Event.When) = res at hstep hq1
    obtain ⟨r, hrun, hret, hnil, hperm, hsorted⟩ :=
      StepAll_drain run hq n res.1 res.2 (by rw [hq1]; exact hlen)
    refine ⟨{ r with fired := s.firing res.2 ++ r.fired }, ?_, hret, hnil, ?_, ?_⟩
    · rw [Simulation.StepAll, hstep]
      simp only [hrun, Option.map_some']
    · simp only [firing_of_Pop s _ hpop, List.singleton_append, List.map_cons]
      exact ((hperm.trans (by rw [hq1])).cons m).trans (Pop_perm s.queue hpop).symm
    · simp only [firing_of_Pop s _ hpop, List.singleton_append, List.map_cons,
        List.pairwise_cons]
      refine ⟨?_, hsorted⟩
      intro y hy
      have hy1 : y ∈ q := by
        have := hperm.subset hy
        rwa [hq1] at this
      exact Pop_min s.queue hpop y ((Pop_sublist s.queue hpop).subset hy1)

end engine

/-! ## Firing order -/

section order

variable {α σ : Type}

/-- Whatever `Step` called until it returns false has done within some number of calls, when
the actions leave the queue as it is: the state outside the engine and the engine are what the
actions of the fired entries have made of them, each invoked in firing order on the engine
without the entry and with the clock moved up to the entry's `When`. -/
theorem StepAll_invokes (run : Runner α σ) (hq : ∀ a x s, (run a x s).2.queue = s.queue) :
    ∀ (fuel : Nat) (x : σ) (s : Simulation α) (r : Run α σ), s.StepAll run fuel x = some r →
      (r.ext, r.sim) = r.fired.foldl (fun p g => run g.entry.Event.Action p.1
        (({ p.2 with queue := g.after.queue } : Simulation α).advance g.entry.Event.When)) (x, s)
  | 0, x, s, r, h => by
    simp only [Simulation.StepAll, Option.some.injEq] at h
    rw [← h]
    rfl
  | fuel + 1, x, s, r, h => by
    rcases Step_total run x s with ⟨_, hstep⟩ | ⟨m, q, hpop, hstep⟩
    · rw [Simulation.StepAll, hstep] at h
      simp only [Option.some.injEq] at h
      rw [← h]
      rfl
    · rw [Simulation.StepAll, hstep] at h
      simp only [] at h
      obtain ⟨r', hr', hrr'⟩ := Option.map_eq_some'.1 h
      have ih := StepAll_invokes run hq fuel _ _ r' hr'
      rw [← hrr', firing_of_Pop s _ hpop]
      show (r'.ext, r'.sim) = List.foldl _ (x, s) (_ :: r'.fired)
      rw [List.foldl_cons, ih]
      simp only [hq, advance_queue]

/-- C1: after any run of `Schedule` calls on any engine, when the actions schedule nothing,
calling `Step` until it returns false does return, leaves the queue empty, fires every queued
entry exactly once (the fired entries are a permutation of the queue, whose events are the
events queued before followed by the scheduled ones), the `When` values of the fired events
are non-decreasing in firing order, and the action of each fired entry has been invoked, in
firing order, on the engine without the entry and with the clock moved up to the entry's
`When`: the state outside the engine and the engine are what those invocations have made of
them. -/
theorem StepAll_fires_each_once_by_When (run : Runner α σ)
    (hq : ∀ a x s, (run a x s).2.queue = s.queue) (x : σ) (s : Simulation α)
    (es : List (ScheduledEvent α)) :
    ∃ r,
      (s.ScheduleAll es).StepAll run (s.queue.length + es.length + 1) x = some r ∧
      r.returned = true ∧ r.sim.queue.Len = 0 ∧
      (r.fired.map (fun f => f.entry)).Perm (s.ScheduleAll es).queue ∧
      (s.ScheduleAll es).queue.map (fun y => y.Event) = s.queue.map (fun y => y.Event) ++ es ∧
      (r.fired.map (fun f => f.entry.Event.When)).Sorted (fun a b => a ≤ b) ∧
      (r.ext, r.sim) = r.fired.foldl (fun p g => run g.entry.Event.Action p.1
        (({ p.2 with queue := g.after.queue } : Simulation α).advance g.entry.Event.When))
        (x, s.ScheduleAll es) := by
  obtain ⟨r, hr, hret, hnil, hperm, hsorted⟩ :=
    StepAll_drain run hq (s.queue.length + es.length) x
      (s.ScheduleAll es) (ScheduleAll_queue_length s es)
  refine ⟨r, hr, hret, (Len_eq_zero_iff _).2 hnil, hperm, ScheduleAll_queue_events s es, ?_,
    StepAll_invokes run hq _ _ _ r hr⟩
  have h1 : (r.fired.map (fun f => f.entry)).Pairwise
      (fun a b => a.Event.When ≤ b.Event.When) :=
    hsorted.imp (fun h => When_le_of_not_Less h)
  have h2 := (List.pairwise_map (f := fun y : scheduledEvent α => y.Event.When)
    (R := fun a b : Int => a ≤ b) (l := r.fired.map (fun f => f.entry))).2 h1
  simpa [List.Sorted, List.map_map] using h2

/-- C1, on the engine `Simulation{}` with the events `When = 10, 5, 5` scheduled in that
order and actions that write their code to a log: the log ends as `[1, 2, 0]`, the two events
due at 5 and then the event due at 10. -/
theorem StepAll_fires_each_once_by_When_witness :
    (∀ (a : Nat) (x : List Nat) (s : Simulation Nat), (logCode a x s).2.queue = s.queue) ∧
    (∃ r,
      ((Simulation.new 0 : Simulation Nat).ScheduleAll [⟨10, 0⟩, ⟨5, 1⟩, ⟨5, 2⟩]).StepAll
        logCode ((Simulation.new 0 : Simulation Nat).queue.length +
          [(⟨10, 0⟩ : ScheduledEvent Nat), ⟨5, 1⟩, ⟨5, 2⟩].length + 1) [] = some r ∧
      r.returned = true ∧ r.sim.queue.Len = 0 ∧
      (r.fired.map (fun f => f.entry)).Perm
        ((Simulation.new 0 : Simulation Nat).ScheduleAll [⟨10, 0⟩, ⟨5, 1⟩, ⟨5, 2⟩]).queue ∧
      ((Simulation.new 0 : Simulation Nat).ScheduleAll [⟨10, 0⟩, ⟨5, 1⟩, ⟨5, 2⟩]).queue.map
          (fun y => y.Event) =
        (Simulation.new 0 : Simulation Nat).queue.map (fun y => y.Event) ++
          [⟨10, 0⟩, ⟨5, 1⟩, ⟨5, 2⟩] ∧
      (r.fired.map (fun f => f.entry.Event.When)).Sorted (fun a b => a ≤ b) ∧
      (r.ext, r.sim) = r.fired.foldl (fun p g => logCode g.entry.Event.Action p.1
        (({ p.2 with queue := g.after.queue } : Simulation Nat).advance g.entry.Event.When))
        ([], (Simulation.new 0 : Simulation Nat).ScheduleAll [⟨10, 0⟩, ⟨5, 1⟩, ⟨5, 2⟩])) ∧
    (((Simulation.new 0 : Simulation Nat).ScheduleAll [⟨10, 0⟩, ⟨5, 1⟩, ⟨5, 2⟩]).StepAll
        logCode 4 []).map (fun r => (r.ext, r.sim, r.returned)) =
      some ([1, 2, 0], { Now := 10, nextID := 3, queue := [] }, true) :=
  ⟨fun _ _ _ => rfl,
    StepAll_fires_each_once_by_When logCode (fun _ _ _ => rfl) [] (Simulation.new 0)
      [⟨10, 0⟩, ⟨5, 1⟩, ⟨5, 2⟩],
    by decide⟩

theorem wrapInt_of_range {n : Int} (h1 : -(2 ^ 63) ≤ n) (h2 : n < 2 ^ 63) : wrapInt n = n := by
  unfold wrapInt
  omega

theorem ScheduleAll_queue (s : Simulation α) (es : List (ScheduledEvent α)) :
    (s.ScheduleAll es).queue = s.queue ++ stamp s.nextID es := by
  induction es generalizing s with
  | nil => simp [ScheduleAll_nil, stamp]
  | cons e es ih => rw [ScheduleAll_cons, ih, Schedule_queue, Schedule_nextID]; simp [stamp]

theorem stamp_events : ∀ (n : Int) (es : List (ScheduledEvent α)),
    (stamp n es).map (fun y => y.Event) = es
  | _, [] => rfl
  | n, e :: es => by simp [stamp, stamp_events (wrapInt (n + 1)) es]

/-- Below the largest `int` the identifiers handed out by `Schedule` go up one by one. -/
theorem stamp_increasing : ∀ (es : List (ScheduledEvent α)) (n : Int),
    -(2 ^ 63) ≤ n → n + es.length ≤ 2 ^ 63 →
    (∀ y ∈ stamp n es, n ≤ y.Order) ∧ (stamp n es).Pairwise (fun a b => a.Order < b.Order)
  | [], _, _, _ => by simp [stamp]
  | [e], n, _, _ => by simp [stamp]
  | e :: e' :: es, n, h1, h2 => by
    have hlen : ((e :: e' :: es).length : Int) = (es.length : Int) + 2 := by
      simp only [List.length_cons]
      push_cast
      ring
    have hlen' : ((e' :: es).length : Int) = (es.length : Int) + 1 := by
      simp only [List.length_cons]
      push_cast
      ring
    have hw : wrapInt (n + 1) = n + 1 := wrapInt_of_range (by omega) (by omega)
    obtain ⟨hge, hpw⟩ := stamp_increasing (e' :: es) (n + 1) (by omega)
      (by omega)
    have hst : stamp n (e :: e' :: es) = { Order := n, Event := e } :: stamp (n + 1) (e' :: es) := by
      rw [stamp, hw]
    rw [hst]
    refine ⟨?_, ?_⟩
    · intro y hy
      rcases List.mem_cons.1 hy with rfl | hy
      · exact le_refl _
      · have := hge y hy
        omega
    · refine List.pairwise_cons.2 ⟨?_, hpw⟩
      intro y hy
      have := hge y hy
      show n < y.Order
      omega

/-- Inserting an entry that was pushed before all entries of a list sorted by `Less` keeps
the list sorted by `Less`. -/
theorem orderedInsert_Less (a : scheduledEvent α) : ∀ (l : List (scheduledEvent α)),
    l.Pairwise eventQueue.Less → (∀ y ∈ l, a.Order < y.Order) →
    (l.orderedInsert (fun u v => u.Event.When ≤ v.Event.When) a).Pairwise eventQueue.Less
  | [], _, _ => by simp
  | b :: l, hl, ha => by
    obtain ⟨hb, hl'⟩ := List.pairwise_cons.1 hl
    by_cases hab : a.Event.When ≤ b.Event.When
    · rw [List.orderedInsert, if_pos hab]
      refine List.pairwise_cons.2 ⟨?_, hl⟩
      intro y hy
      have hay := ha y hy
      have hby : b.Event.When ≤ y.Event.When := by
        rcases List.mem_cons.1 hy with rfl | hy
        · exact le_refl _
        · exact When_le_of_not_Less (Less_asymm (hb y hy))
      unfold eventQueue.Less
      omega
    · rw [List.orderedInsert, if_neg hab]
      refine List.pairwise_cons.2 ⟨?_, orderedInsert_Less a l hl'
        (fun y hy => ha y (List.mem_cons_of_mem _ hy))⟩
      intro y hy
      rcases (List.mem_orderedInsert (r := fun u v : scheduledEvent α =>
        u.Event.When ≤ v.Event.When)).1 hy with rfl | hy
      · unfold eventQueue.Less
        omega
      · exact hb y hy

/-- Sorting by `When` alone a list of entries whose `Order` goes up gives a list sorted by
`Less`: insertion sort keeps entries with the same `When` in their order. -/
theorem insertionSort_Less : ∀ (l : List (scheduledEvent α)),
    l.Pairwise (fun a b => a.Order < b.Order) →
    (l.insertionSort (fun u v => u.Event.When ≤ v.Event.When)).Pairwise eventQueue.Less
  | [], _ => by simp
  | a :: l, h => by
    obtain ⟨ha, hl⟩ := List.pairwise_cons.1 h
    rw [List.insertionSort]
    refine orderedInsert_Less a _ (insertionSort_Less l hl) ?_
    intro y hy
    exact ha y ((List.mem_insertionSort _).1 hy)

/-- Two lists with the same entries, both sorted by `Less`, are the same list. -/
theorem eq_of_perm_of_Less {l₁ l₂ : List (scheduledEvent α)} (hp : l₁.Perm l₂)
    (h₁ : l₁.Pairwise eventQueue.Less) (h₂ : l₂.Pairwise eventQueue.Less) : l₁ = l₂ := by
  haveI : IsAntisymm (scheduledEvent α) eventQueue.Less :=
    ⟨fun a b hab hba => absurd hba (Less_asymm hab)⟩
  exact List.eq_of_perm_of_sorted hp h₁ h₂

/-- Entries with different `Order` are comparable by `Less`. -/
theorem Less_of_not_Less {a b : scheduledEvent α} (hne : a.Order ≠ b.Order)
    (h : ¬ eventQueue.Less b a) : eventQueue.Less a b := by
  unfold eventQueue.Less at *
  omega

/-- In a list sorted by `Less`, of two entries of the list the smaller one comes first. -/
theorem pair_sublist_of_Less {a b : scheduledEvent α} : ∀ {l : List (scheduledEvent α)},
    l.Pairwise eventQueue.Less → a ∈ l → b ∈ l → eventQueue.Less a b → List.Sublist [a, b] l
  | [], _, ha, _, _ => by cases ha
  | c :: l, hl, ha, hb, hab => by
    obtain ⟨hc, hl'⟩ := List.pairwise_cons.1 hl
    rcases List.mem_cons.1 ha with rfl | ha'
    · rcases List.mem_cons.1 hb with rfl | hb'
      · exact absurd hab (Less_irrefl _)
      · exact List.Sublist.cons₂ _ (List.singleton_sublist.2 hb')
    · rcases List.mem_cons.1 hb with rfl | hb'
      · exact absurd (hc a ha') (Less_asymm hab)
      · exact List.Sublist.cons _ (pair_sublist_of_Less hl' ha' hb' hab)

theorem stamp_mem_append : ∀ (l₁ : List (ScheduledEvent α)) (n : Int) (a : ScheduledEvent α)
    (l₂ : List (ScheduledEvent α)), -(2 ^ 63) ≤ n → n + (l₁ ++ a :: l₂).length ≤ 2 ^ 63 →
    ({ Order := n + l₁.length, Event := a } : scheduledEvent α) ∈ stamp n (l₁ ++ a :: l₂)
  | [], n, a, l₂, _, _ => by simp [stamp]
  | c :: l₁, n, a, l₂, h1, h2 => by
    have hlen : (((c :: l₁) ++ a :: l₂).length : Int) = ((l₁ ++ a :: l₂).length : Int) + 1 := by
      simp only [List.cons_append, List.length_cons]
      push_cast
      ring
    have hpos : (0 : Int) < ((l₁ ++ a :: l₂).length : Int) := by
      simp only [List.length_append, List.length_cons]
      push_cast
      omega
    have hw : wrapInt (n + 1) = n + 1 := wrapInt_of_range (by omega) (by omega)
    have ih := stamp_mem_append l₁ (n + 1) a l₂ (by omega) (by omega)
    have hidx : n + ((c :: l₁).length : Int) = n + 1 + (l₁.length : Int) := by
      simp only [List.length_cons]
      push_cast
      ring
    rw [List.cons_append, stamp, hw, hidx]
    exact List.mem_cons_of_mem _ ih

/-- C2 (amended): on an engine whose queued entries carry distinct identifiers below `nextID`,
as every engine built by `Schedule` and `Step` from `Simulation{}` is while `nextID` has not
wrapped, a run of `Schedule` calls that keeps `nextID` within `int`, followed by `Step` until it
returns false (the actions schedule nothing), fires the entries in increasing `(When, Order)`
order; of two scheduled events with the same `When` the one scheduled first is fired first; and
on an empty queue the events fired are the stable sort by `When` of the scheduled events. -/
theorem StepAll_fires_stable_sort (run : Runner α σ)
    (hq : ∀ a x s, (run a x s).2.queue = s.queue) (x : σ) (s : Simulation α)
    (es : List (ScheduledEvent α))
    (hlo : -(2 ^ 63) ≤ s.nextID) (hhi : s.nextID + es.length ≤ 2 ^ 63)
    (hold : ∀ y ∈ s.queue, y.Order < s.nextID)
    (hdistinct : s.queue.Pairwise (fun a b => a.Order ≠ b.Order)) :
    ∃ r,
      (s.ScheduleAll es).StepAll run (s.queue.length + es.length + 1) x = some r ∧
      r.returned = true ∧
      (r.fired.map (fun f => f.entry)).Perm (s.queue ++ stamp s.nextID es) ∧
      (r.fired.map (fun f => f.entry)).Pairwise eventQueue.Less ∧
      (∀ l₁ a l₂ b l₃, es = l₁ ++ a :: (l₂ ++ b :: l₃) → a.When = b.When →
        List.Sublist
          [({ Order := s.nextID + l₁.length, Event := a } : scheduledEvent α),
            { Order := s.nextID + l₁.length + 1 + l₂.length, Event := b }]
          (r.fired.map (fun f => f.entry))) ∧
      (s.queue = [] → r.fired.map (fun f => f.entry.Event) = stableSortByWhen es) := by
  obtain ⟨r, hrun, hret, _, hperm, hsorted⟩ :=
    StepAll_drain run hq (s.queue.length + es.length) x (s.ScheduleAll es)
      (ScheduleAll_queue_length s es)
  rw [ScheduleAll_queue] at hperm
  obtain ⟨hge, hinc⟩ := stamp_increasing es s.nextID hlo hhi
  have hne : (s.queue ++ stamp s.nextID es).Pairwise (fun a b => a.Order ≠ b.Order) := by
    refine List.pairwise_append.2 ⟨hdistinct, hinc.imp (fun h => ne_of_lt h), ?_⟩
    intro a ha b hb
    have h1 := hold a ha
    have h2 := hge b hb
    omega
  have hne' : (r.fired.map (fun f => f.entry)).Pairwise (fun a b => a.Order ≠ b.Order) :=
    (hperm.pairwise_iff (fun h => Ne.symm h)).2 hne
  have hless : (r.fired.map (fun f => f.entry)).Pairwise eventQueue.Less :=
    (hsorted.and hne').imp (fun h => Less_of_not_Less h.2 h.1)
  refine ⟨r, hrun, hret, hperm, hless, ?_, ?_⟩
  · intro l₁ a l₂ b l₃ hes hab
    have ha : ({ Order := s.nextID + l₁.length, Event := a } : scheduledEvent α) ∈
        stamp s.nextID es := by
      rw [hes]
      exact stamp_mem_append l₁ s.nextID a (l₂ ++ b :: l₃) hlo (by rw [← hes]; exact hhi)
    have hb : ({ Order := s.nextID + l₁.length + 1 + l₂.length, Event := b } :
        scheduledEvent α) ∈ stamp s.nextID es := by
      have h := stamp_mem_append (l₁ ++ a :: l₂) s.nextID b l₃ hlo
        (by rw [List.append_assoc, List.cons_append, ← hes]; exact hhi)
      have hidx : s.nextID + ((l₁ ++ a :: l₂).length : Int) =
          s.nextID + l₁.length + 1 + l₂.length := by
        simp only [List.length_append, List.length_cons]
        push_cast
        ring
      rw [hidx, List.append_assoc, List.cons_append, ← hes] at h
      exact h
    refine pair_sublist_of_Less hless (hperm.symm.subset (List.mem_append_right _ ha))
      (hperm.symm.subset (List.mem_append_right _ hb)) ?_
    right
    refine ⟨hab, ?_⟩
    show s.nextID + (l₁.length : Int) < s.nextID + l₁.length + 1 + l₂.length
    omega
  · intro hnil
    rw [hnil, List.nil_append] at hperm
    have hsort : ((stamp s.nextID es).insertionSort
        (fun u v => u.Event.When ≤ v.Event.When)).Pairwise eventQueue.Less :=
      insertionSort_Less _ hinc
    have heq := eq_of_perm_of_Less (hperm.trans (List.perm_insertionSort _ _).symm) hless hsort
    have hmap : r.fired.map (fun f => f.entry.Event) =
        (r.fired.map (fun f => f.entry)).map (fun y => y.Event) := by
      rw [List.map_map]
      rfl
    rw [hmap, heq, stableSortByWhen]
    rw [List.map_insertionSort (r := fun u v : scheduledEvent α => u.Event.When ≤ v.Event.When)
      (s := fun a b : ScheduledEvent α => a.When ≤ b.When) (fun y => y.Event) _
      (fun _ _ _ _ => Iff.rfl), stamp_events]

/-- C2, on the example scenario: `When = 10, 5, 5` scheduled in that order on `Simulation{}`
fires the first 5-event, the second 5-event, then the 10-event, and `Now` ends at 10. -/
theorem StepAll_fires_stable_sort_witness :
    (∃ r,
      ((Simulation.new 0 : Simulation Nat).ScheduleAll [⟨10, 0⟩, ⟨5, 1⟩, ⟨5, 2⟩]).StepAll
        logCode 4 [] = some r ∧
      r.returned = true ∧
      (r.fired.map (fun f => f.entry)).Perm
        ((Simulation.new 0 : Simulation Nat).queue ++
          stamp (Simulation.new 0 : Simulation Nat).nextID [⟨10, 0⟩, ⟨5, 1⟩, ⟨5, 2⟩]) ∧
      (r.fired.map (fun f => f.entry)).Pairwise eventQueue.Less ∧
      (∀ l₁ a l₂ b l₃, [(⟨10, 0⟩ : ScheduledEvent Nat), ⟨5, 1⟩, ⟨5, 2⟩] =
          l₁ ++ a :: (l₂ ++ b :: l₃) → a.When = b.When →
        List.Sublist
          [({ Order := (Simulation.new 0 : Simulation Nat).nextID + l₁.length, Event := a } :
              scheduledEvent Nat),
            { Order := (Simulation.new 0 : Simulation Nat).nextID + l₁.length + 1 + l₂.length,
              Event := b }]
          (r.fired.map (fun f => f.entry))) ∧
      ((Simulation.new 0 : Simulation Nat).queue = [] →
        r.fired.map (fun f => f.entry.Event) = stableSortByWhen [⟨10, 0⟩, ⟨5, 1⟩, ⟨5, 2⟩])) ∧
    (scenario.StepAll logCode 4 []).map (fun r => (r.codes, r.ext, r.sim.Now, r.returned)) =
      some ([1, 2, 0], [1, 2, 0], 10, true) :=
  ⟨StepAll_fires_stable_sort logCode (fun _ _ _ => rfl) [] (Simulation.new 0)
      [⟨10, 0⟩, ⟨5, 1⟩, ⟨5, 2⟩] (by decide) (by decide) (fun _ h => nomatch h) List.Pairwise.nil,
    by decide⟩

/-- C2 as stated fails where `nextID` wraps: on an empty engine with `nextID` at the largest
`int`, two events scheduled for the same `When = 5` get the identifiers `2^63 - 1` and `-2^63`,
and the event scheduled second is fired first, which is not the stable sort by `When`. -/
theorem StepAll_not_stable_sort_at_maxInt :
    ((({ Now := 0, nextID := maxInt, queue := [] } : Simulation Nat).ScheduleAll
        [⟨5, 0⟩, ⟨5, 1⟩]).StepAll logCode 3 []).map
      (fun r => (r.fired.map (fun f => f.entry), r.returned)) =
      some ([⟨-(2 ^ 63), ⟨5, 1⟩⟩, ⟨2 ^ 63 - 1, ⟨5, 0⟩⟩], true) ∧
    stableSortByWhen [(⟨5, 0⟩ : ScheduledEvent Nat), ⟨5, 1⟩] = [⟨5, 0⟩, ⟨5, 1⟩] := by
  decide

end order


/-! ## The clock -/

section clock

variable {α σ : Type}

theorem Step_Now_le (run : Runner α σ) (hnow : ∀ a x s, s.Now ≤ (run a x s).2.Now) (x : σ)
    (s : Simulation α) : ∃ b x' s', s.Step run x = some (b, x', s') ∧ s.Now ≤ s'.Now := by
  rcases Step_total run x s with ⟨_, h⟩ | ⟨m, q, _, h⟩
  · exact ⟨false, x, s, h, le_refl _⟩
  · refine ⟨true, _, _, h, ?_⟩
    refine le_trans ?_ (hnow _ _ _)
    rw [advance_Now]
    exact le_max_left _ _

/-- C3 (amended): when no action sets `Now` to an earlier instant (in particular when no action
assigns `Now`), every `Step` call returns with `Now` not earlier than before the call, and so
does every sequence of `Step` calls. -/
theorem Step_Now_nondecreasing (run : Runner α σ)
    (hnow : ∀ a x s, s.Now ≤ (run a x s).2.Now) (x : σ) (s : Simulation α) :
    (∃ b x' s', s.Step run x = some (b, x', s') ∧ s.Now ≤ s'.Now) ∧
    ∀ n, ∃ r, s.StepN run n x = some r ∧ s.Now ≤ r.sim.Now := by
  refine ⟨Step_Now_le run hnow x s, ?_⟩
  intro n
  induction n generalizing x s with
  | zero => exact ⟨⟨[], x, s, true⟩, rfl, le_refl _⟩
  | succ n ih =>
    obtain ⟨b, x', s', hstep, hle⟩ := Step_Now_le run hnow x s
    obtain ⟨r, hr, hle'⟩ := ih x' s'
    refine ⟨{ r with fired := (if b then s.firing s' else []) ++ r.fired }, ?_, le_trans hle hle'⟩
    rw [Simulation.StepN, hstep]
    simp only [hr, Option.map_some']

/-- C3 (amended), on the example scenario with actions that only write to a log. -/
theorem Step_Now_nondecreasing_witness :
    (∀ (a : Nat) (x : List Nat) (s : Simulation Nat), s.Now ≤ (logCode a x s).2.Now) ∧
    (∃ b x' s', scenario.Step logCode [] = some (b, x', s') ∧ scenario.Now ≤ s'.Now) ∧
    ∀ n, ∃ r, scenario.StepN logCode n [] = some r ∧ scenario.Now ≤ r.sim.Now :=
  ⟨fun _ _ s => le_refl s.Now,
    Step_Now_nondecreasing logCode (fun _ _ s => le_refl s.Now) [] scenario⟩

/-- C3 as stated fails when an action assigns `Now`: with `Now = 5` and one event due at 7
whose action is `s.Now = 0`, `Step` returns true and leaves `Now = 0`, earlier than 5. -/
theorem Step_Now_decreases :
    ((Simulation.new 5 : Simulation Int).Schedule ⟨7, 0⟩).Now = 5 ∧
    ((Simulation.new 5 : Simulation Int).Schedule ⟨7, 0⟩).Step setNow () =
      some (true, (), { Now := 0, nextID := 1, queue := [] }) ∧
    ¬ ((5 : Int) ≤ 0) := by
  decide

end clock

/-! ## Running up to a horizon -/

section horizon

variable {α σ : Type}

theorem Peek_of_Pop {q : eventQueue α} {m : scheduledEvent α} {r : eventQueue α}
    (h : q.Pop = some (m, r)) : q.Peek = some m := by
  simp [eventQueue.Peek, h]

/-- `RunUntil` on a queue whose minimum is due after the horizon returns at once. -/
theorem RunUntil_of_late (run : Runner α σ) (T : Int) (fuel : Nat) (x : σ) (s : Simulation α)
    {m : scheduledEvent α} {q : eventQueue α} (hpop : s.queue.Pop = some (m, q))
    (hlate : T < m.Event.When) : s.RunUntil run T (fuel + 1) x = some ⟨[], x, s, true⟩ := by
  have hne : ¬ (s.queue.Len = 0) := by
    intro h0
    rw [(Len_eq_zero_iff _).1 h0] at hpop
    cases hpop
  have hgt : m.Event.When > T := hlate
  simp [Simulation.RunUntil, hne, Peek_of_Pop hpop, hgt]

/-- `RunUntil` on a queue whose minimum is due by the horizon makes a `Step` and goes on. -/
theorem RunUntil_of_early (run : Runner α σ) (T : Int) (fuel : Nat) (x : σ) (s : Simulation α)
    {m : scheduledEvent α} {q : eventQueue α} (hpop : s.queue.Pop = some (m, q))
    (hearly : m.Event.When ≤ T) :
    s.RunUntil run T (fuel + 1) x =
      ((run m.Event.Action x (({ s with queue := q } : Simulation α).advance
          m.Event.When)).2.RunUntil run T fuel
        (run m.Event.Action x (({ s with queue := q } : Simulation α).advance
          m.Event.When)).1).map
        (fun r => { r with fired :=
          { entry := m, clock := max s.Now m.Event.When,
            after := (run m.Event.Action x (({ s with queue := q } : Simulation α).advance
              m.Event.When)).2 } :: r.fired }) := by
  have hne : ¬ (s.queue.Len = 0) := by
    intro h0
    rw [(Len_eq_zero_iff _).1 h0] at hpop
    cases hpop
  have hgt : ¬ (m.Event.When > T) := not_lt.2 hearly
  rw [Simulation.RunUntil]
  simp only [hne, if_false, Peek_of_Pop hpop, hgt, Step_of_Pop run x s hpop,
    firing_of_Pop s _ hpop, List.singleton_append]

theorem RunUntil_of_nil (run : Runner α σ) (T : Int) (fuel : Nat) (x : σ) (s : Simulation α)
    (h : s.queue = []) : s.RunUntil run T (fuel + 1) x = some ⟨[], x, s, true⟩ := by
  simp [Simulation.RunUntil, eventQueue.Len, h]

/-- When the actions leave the queue as it is, `RunUntil` returns within one iteration per
queued entry, having taken out the entries due by the horizon, smallest first. -/
theorem RunUntil_drain (run : Runner α σ) (hq : ∀ a x s, (run a x s).2.queue = s.queue)
    (T : Int) : ∀ (n : Nat) (x : σ) (s : Simulation α), s.queue.length = n →
      ∃ r, s.RunUntil run T (n + 1) x = some r ∧ r.returned = true ∧
        r.sim.queue = s.queue.filter (fun y => decide (T < y.Event.When)) ∧
        (r.fired.map (fun f => f.entry)).Perm
          (s.queue.filter (fun y => decide (y.Event.When ≤ T))) ∧
        (r.fired.map (fun f => f.entry)).Pairwise (fun a b => ¬ eventQueue.Less b a)
  | 0, x, s, hn => by
    have hnil : s.queue = [] := List.length_eq_zero.1 hn
    refine ⟨⟨[], x, s, true⟩, RunUntil_of_nil run T 0 x s hnil, rfl, ?_, ?_, ?_⟩
    · simp [hnil]
    · simp [hnil]
    · simp
  | n + 1, x, s, hn => by
    have hne : s.queue ≠ [] := by
      intro h0
      rw [h0] at hn
      cases hn
    obtain ⟨m, q, hpop⟩ := Pop_isSome_of_ne_nil s.queue hne
    by_cases hlate : T < m.Event.When
    · have hall : ∀ y ∈ s.queue, T < y.Event.When := fun y hy =>
        lt_of_lt_of_le hlate (When_le_of_not_Less (Pop_min s.queue hpop y hy))
      refine ⟨⟨[], x, s, true⟩, RunUntil_of_late run T (n + 1) x s hpop hlate, rfl, ?_, ?_, ?_⟩
      · exact (List.filter_eq_self.2 (fun y hy => by simpa using hall y hy)).symm
      · have : s.queue.filter (fun y => decide (y.Event.When ≤ T)) = [] :=
          List.filter_eq_nil_iff.2 (fun y hy => by simpa using hall y hy)
        simp [this]
      · simp
    · have hearly : m.Event.When ≤ T := not_lt.1 hlate
      have hlen : q.length = n := by
        have := Pop_length s.queue hpop
        omega
      have hrun := RunUntil_of_early run T (n + 1) x s hpop hearly
      have hq1 : (run m.Event.Action x
          (({ s with queue := q } : Simulation α).advance m.Event.When)).2.queue = q := by
        rw [hq, advance_queue]
      generalize run m.Event.Action x
        (({ s with queue := q } : Simulation α).advance m.Event.When) = res at hrun hq1
      obtain ⟨r, hr, hret, hqueue, hperm, hsorted⟩ :=
        RunUntil_drain run hq T n res.1 res.2 (by rw [hq1]; exact hlen)
      rw [hq1] at hqueue hperm
      refine ⟨{ r with fired :=
          { entry := m, clock := max s.Now m.Event.When, after := res.2 } :: r.fired },
        by rw [hrun, hr]; rfl, hret, ?_, ?_, ?_⟩
      · show r.sim.queue = _
        rw [hqueue]
        exact Pop_filter _ s.queue hpop (by simpa using hearly)
      · show (List.map (fun f => f.entry) (_ :: r.fired)).Perm _
        simp only [List.map_cons]
        have h1 := (Pop_perm s.queue hpop).filter (fun y => decide (y.Event.When ≤ T))
        have h2 : (m :: q).filter (fun y => decide (y.Event.When ≤ T)) =
            m :: q.filter (fun y => decide (y.Event.When ≤ T)) := by
          simp [List.filter_cons, hearly]
        rw [h2] at h1
        exact (hperm.cons m).trans h1.symm
      · show (List.map (fun f => f.entry) (_ :: r.fired)).Pairwise _
        simp only [List.map_cons, List.pairwise_cons]
        refine ⟨?_, hsorted⟩
        intro y hy
        have hy1 : y ∈ q := (List.mem_filter.1 (hperm.subset hy)).1
        exact Pop_min s.queue hpop y ((Pop_sublist s.queue hpop).subset hy1)

/-- Whatever `RunUntil` has done within some number of iterations, when the actions leave the
queue as it is: the state outside the engine and the engine are what the actions of the fired
entries have made of them, each invoked in firing order on the engine without the entry and
with the clock moved up to the entry's `When`. -/
theorem RunUntil_invokes (run : Runner α σ) (hq : ∀ a x s, (run a x s).2.queue = s.queue)
    (T : Int) :
    ∀ (fuel : Nat) (x : σ) (s : Simulation α) (r : Run α σ), s.RunUntil run T fuel x = some r →
      (r.ext, r.sim) = r.fired.foldl (fun p g => run g.entry.Event.Action p.1
        (({ p.2 with queue := g.after.queue } : Simulation α).advance g.entry.Event.When)) (x, s)
  | 0, x, s, r, h => by
    simp only [Simulation.RunUntil, Option.some.injEq] at h
    rw [← h]
    rfl
  | fuel + 1, x, s, r, h => by
    by_cases hnil : s.queue = []
    · rw [RunUntil_of_nil run T fuel x s hnil, Option.some.injEq] at h
      rw [← h]
      rfl
    · obtain ⟨m, q, hpop⟩ := Pop_isSome_of_ne_nil s.queue hnil
      by_cases hlate : T < m.Event.When
      · rw [RunUntil_of_late run T fuel x s hpop hlate, Option.some.injEq] at h
        rw [← h]
        rfl
      · rw [RunUntil_of_early run T fuel x s hpop (not_lt.1 hlate)] at h
        obtain ⟨r', hr', hrr'⟩ := Option.map_eq_some'.1 h
        have ih := RunUntil_invokes run hq T fuel _ _ r' hr'
        rw [← hrr']
        show (r'.ext, r'.sim) = List.foldl _ (x, s) (_ :: r'.fired)
        rw [List.foldl_cons, ih]
        simp only [hq, advance_queue]

theorem stamp_filter_events (p : ScheduledEvent α → Bool) :
    ∀ (n : Int) (es : List (ScheduledEvent α)),
      ((stamp n es).filter (fun y => p y.Event)).map (fun y => y.Event) = es.filter p
  | _, [] => rfl
  | n, e :: es => by
    have ih := stamp_filter_events p (wrapInt (n + 1)) es
    cases hp : p e <;> simp [stamp, List.filter_cons, hp, ih]

/-- C4 (amended): on every engine and for every horizon `T`, when the actions schedule nothing,
`RunUntil(T)` returns, the entries it has fired are exactly the queued entries with `When ≤ T`,
fired in `(When, Order)` order, and the actions of those entries have been invoked in that
order, each on the engine without the entry and with the clock moved up to the entry's `When`
(the state outside the engine and the engine are what those invocations have made of them);
the queue it leaves is the old queue restricted to the entries with `When > T`, in
their old order, and when there is such an entry `Peek` returns the smallest of them.  The
order of firing is `(When, scheduling order)` while `nextID` has not wrapped: when the queue
was filled by `Schedule` calls during which `nextID` stayed within `int`, the events fired are
the stable sort by `When` of the scheduled events with `When ≤ T`. -/
theorem RunUntil_fires_exactly_due (run : Runner α σ)
    (hq : ∀ a x s, (run a x s).2.queue = s.queue) (T : Int) (x : σ) (s : Simulation α) :
    ∃ r, s.RunUntil run T (s.queue.length + 1) x = some r ∧ r.returned = true ∧
      (r.fired.map (fun f => f.entry)).Perm
        (s.queue.filter (fun y => decide (y.Event.When ≤ T))) ∧
      (r.fired.map (fun f => f.entry)).Pairwise (fun a b => ¬ eventQueue.Less b a) ∧
      (r.ext, r.sim) = r.fired.foldl (fun p g => run g.entry.Event.Action p.1
        (({ p.2 with queue := g.after.queue } : Simulation α).advance g.entry.Event.When))
        (x, s) ∧
      r.sim.queue = s.queue.filter (fun y => decide (T < y.Event.When)) ∧
      ((∃ y ∈ s.queue, T < y.Event.When) →
        ∃ m, r.sim.queue.Peek = some m ∧ m ∈ s.queue ∧ T < m.Event.When ∧
          ∀ y ∈ s.queue, T < y.Event.When → ¬ eventQueue.Less y m) ∧
      (∀ (s₀ : Simulation α) (es : List (ScheduledEvent α)), s = s₀.ScheduleAll es →
        s₀.queue = [] → -(2 ^ 63) ≤ s₀.nextID → s₀.nextID + es.length ≤ 2 ^ 63 →
        r.fired.map (fun f => f.entry.Event) =
          stableSortByWhen (es.filter (fun e => decide (e.When ≤ T)))) := by
  obtain ⟨r, hr, hret, hqueue, hperm, hsorted⟩ :=
    RunUntil_drain run hq T _ x s rfl
  refine ⟨r, hr, hret, hperm, hsorted, RunUntil_invokes run hq T _ _ _ r hr, hqueue, ?_, ?_⟩
  · rintro ⟨y, hy, hyT⟩
    have hne : r.sim.queue ≠ [] := by
      rw [hqueue]
      exact List.ne_nil_of_mem (List.mem_filter.2 ⟨hy, by simpa using hyT⟩)
    obtain ⟨m, q, hpop⟩ := Pop_isSome_of_ne_nil _ hne
    have hm := Pop_mem _ hpop
    rw [hqueue] at hm
    obtain ⟨hm1, hm2⟩ := List.mem_filter.1 hm
    refine ⟨m, Peek_of_Pop hpop, hm1, by simpa using hm2, ?_⟩
    intro z hz hzT
    refine Pop_min _ hpop z ?_
    rw [hqueue]
    exact List.mem_filter.2 ⟨hz, by simpa using hzT⟩
  · intro s₀ es hs hempty hlo hhi
    rw [hs, ScheduleAll_queue, hempty, List.nil_append] at hperm
    obtain ⟨_, hinc⟩ := stamp_increasing es s₀.nextID hlo hhi
    have hinc' : ((stamp s₀.nextID es).filter
        (fun y => decide (y.Event.When ≤ T))).Pairwise (fun a b => a.Order < b.Order) :=
      hinc.sublist (List.filter_sublist _)
    have hne : (r.fired.map (fun f => f.entry)).Pairwise (fun a b => a.Order ≠ b.Order) :=
      (hperm.pairwise_iff (fun h => Ne.symm h)).2 (hinc'.imp (fun h => ne_of_lt h))
    have hless : (r.fired.map (fun f => f.entry)).Pairwise eventQueue.Less :=
      (hsorted.and hne).imp (fun h => Less_of_not_Less h.2 h.1)
    have heq := eq_of_perm_of_Less (hperm.trans (List.perm_insertionSort _ _).symm) hless
      (insertionSort_Less _ hinc')
    have hmap : r.fired.map (fun f => f.entry.Event) =
        (r.fired.map (fun f => f.entry)).map (fun y => y.Event) := by
      rw [List.map_map]
      rfl
    rw [hmap, heq, stableSortByWhen]
    rw [List.map_insertionSort (r := fun u v : scheduledEvent α => u.Event.When ≤ v.Event.When)
      (s := fun a b : ScheduledEvent α => a.When ≤ b.When) (fun y => y.Event) _
      (fun _ _ _ _ => Iff.rfl)]
    rw [stamp_filter_events (fun e => decide (e.When ≤ T))]

/-- C4 (amended), on the example scenario: on the queue `[10, 5, 5]`, `RunUntil(7)` fires only
the two 5-events, in the order they were scheduled, as the log of their actions shows, and
leaves the 10-event queued; a later `RunUntil(10)` fires it. -/
theorem RunUntil_fires_exactly_due_witness :
    (∀ (a : Nat) (x : List Nat) (s : Simulation Nat), (logCode a x s).2.queue = s.queue) ∧
    (∃ r, scenario.RunUntil logCode 7 (scenario.queue.length + 1) [] = some r ∧
      r.returned = true ∧
      (r.fired.map (fun f => f.entry)).Perm
        (scenario.queue.filter (fun y => decide (y.Event.When ≤ 7))) ∧
      (r.fired.map (fun f => f.entry)).Pairwise (fun a b => ¬ eventQueue.Less b a) ∧
      (r.ext, r.sim) = r.fired.foldl (fun p g => logCode g.entry.Event.Action p.1
        (({ p.2 with queue := g.after.queue } : Simulation Nat).advance g.entry.Event.When))
        ([], scenario) ∧
      r.sim.queue = scenario.queue.filter (fun y => decide (7 < y.Event.When)) ∧
      ((∃ y ∈ scenario.queue, 7 < y.Event.When) →
        ∃ m, r.sim.queue.Peek = some m ∧ m ∈ scenario.queue ∧ 7 < m.Event.When ∧
          ∀ y ∈ scenario.queue, 7 < y.Event.When → ¬ eventQueue.Less y m) ∧
      (∀ (s₀ : Simulation Nat) (es : List (ScheduledEvent Nat)), scenario = s₀.ScheduleAll es →
        s₀.queue = [] → -(2 ^ 63) ≤ s₀.nextID → s₀.nextID + es.length ≤ 2 ^ 63 →
        r.fired.map (fun f => f.entry.Event) =
          stableSortByWhen (es.filter (fun e => decide (e.When ≤ 7))))) ∧
    (scenario.RunUntil logCode 7 4 []).map
        (fun r => (r.ext, r.sim.queue, r.sim.queue.Peek, r.sim.Now, r.returned)) =
      some ([1, 2], [⟨0, ⟨10, 0⟩⟩], some ⟨0, ⟨10, 0⟩⟩, 5, true) ∧
    (scenario.RunUntil logCode 7 4 []).map (fun r => r.fired.map (fun f => f.entry.Event)) =
      some (stableSortByWhen ([(⟨10, 0⟩ : ScheduledEvent Nat), ⟨5, 1⟩, ⟨5, 2⟩].filter
        (fun e => decide (e.When ≤ 7)))) ∧
    ((scenario.RunUntil logCode 7 4 []).bind
        (fun r => r.sim.RunUntil logCode 10 2 r.ext)).map
        (fun r => (r.ext, r.sim.queue, r.sim.Now, r.returned)) =
      some ([1, 2, 0], [], 10, true) :=
  ⟨fun _ _ _ => rfl, RunUntil_fires_exactly_due logCode (fun _ _ _ => rfl) 7 [] scenario,
    by decide, by decide, by decide⟩

/-- C4 as stated fails where `nextID` wraps: on an empty engine with `nextID` at the largest
`int`, two events scheduled for the same `When = 5` get the identifiers `2^63 - 1` and `-2^63`,
and `RunUntil(7)` fires the event scheduled second first, as the log of the actions shows:
the order is `(When, Order)`, not `(When, scheduling order)`. -/
theorem RunUntil_not_scheduling_order_at_maxInt :
    ((({ Now := 0, nextID := maxInt, queue := [] } : Simulation Nat).ScheduleAll
        [⟨5, 0⟩, ⟨5, 1⟩]).RunUntil logCode 7 3 []).map
      (fun r => (r.ext, r.fired.map (fun f => f.entry), r.returned)) =
      some ([1, 0], [⟨-(2 ^ 63), ⟨5, 1⟩⟩, ⟨2 ^ 63 - 1, ⟨5, 0⟩⟩], true) ∧
    stableSortByWhen ([(⟨5, 0⟩ : ScheduledEvent Nat), ⟨5, 1⟩].filter
      (fun e => decide (e.When ≤ 7))) = [⟨5, 0⟩, ⟨5, 1⟩] := by
  decide

/-- C10: on every engine and for every horizon, with actions that may put further entries
into the queue, `RunUntil` cut short after any number of iterations has not read an empty
queue, has fired only entries with `When` not after the horizon, and every entry with `When`
after the horizon that was queued at the start or when some `Step` of the loop returned is
still queued, in the same order; when `RunUntil` has returned, the queue is empty or its
minimum entry has `When` after the horizon. -/
theorem RunUntil_keeps_later_entries (run : Runner α σ)
    (hpush : ∀ a x s, ∃ added, (run a x s).2.queue = s.queue ++ added) (T : Int) (fuel : Nat)
    (x : σ) (s : Simulation α) :
    ∃ r, s.RunUntil run T fuel x = some r ∧
      (∀ f ∈ r.fired, f.entry.Event.When ≤ T) ∧
      List.Sublist (s.queue.filter (fun y => decide (T < y.Event.When))) r.sim.queue ∧
      (∀ f ∈ r.fired,
        List.Sublist (f.after.queue.filter (fun y => decide (T < y.Event.When))) r.sim.queue) ∧
      (r.returned = true →
        r.sim.queue = [] ∨ ∃ m, r.sim.queue.Peek = some m ∧ T < m.Event.When) := by
  induction fuel generalizing x s with
  | zero =>
    refine ⟨⟨[], x, s, false⟩, rfl, ?_, List.filter_sublist _, ?_, ?_⟩
    · intro f hf
      cases hf
    · intro f hf
      cases hf
    · intro h
      cases h
  | succ fuel ih =>
    by_cases hnil : s.queue = []
    · refine ⟨⟨[], x, s, true⟩, RunUntil_of_nil run T fuel x s hnil, ?_, List.filter_sublist _,
        ?_, fun _ => Or.inl hnil⟩
      · intro f hf
        cases hf
      · intro f hf
        cases hf
    · obtain ⟨m, q, hpop⟩ := Pop_isSome_of_ne_nil s.queue hnil
      by_cases hlate : T < m.Event.When
      · refine ⟨⟨[], x, s, true⟩, RunUntil_of_late run T fuel x s hpop hlate, ?_,
          List.filter_sublist _, ?_, fun _ => Or.inr ⟨m, Peek_of_Pop hpop, hlate⟩⟩
        · intro f hf
          cases hf
        · intro f hf
          cases hf
      · have hearly : m.Event.When ≤ T := not_lt.1 hlate
        have hrun := RunUntil_of_early run T fuel x s hpop hearly
        obtain ⟨added, hadd⟩ := hpush m.Event.Action x
          (({ s with queue := q } : Simulation α).advance m.Event.When)
        rw [advance_queue] at hadd
        generalize run m.Event.Action x
          (({ s with queue := q } : Simulation α).advance m.Event.When) = res at hrun hadd
        obtain ⟨r, hr, hfired, hkeep, hkeep', hret⟩ := ih res.1 res.2
        have hsub : List.Sublist (s.queue.filter (fun y => decide (T < y.Event.When)))
            (res.2.queue.filter (fun y => decide (T < y.Event.When))) := by
          rw [← Pop_filter _ s.queue hpop (by simpa using hearly), hadd, List.filter_append]
          exact List.sublist_append_left _ _
        refine ⟨{ r with fired :=
            { entry := m, clock := max s.Now m.Event.When, after := res.2 } :: r.fired },
          by rw [hrun, hr]; rfl, ?_, hsub.trans hkeep, ?_, hret⟩
        · intro f hf
          rcases List.mem_cons.1 hf with rfl | hf
          · exact hearly
          · exact hfired f hf
        · intro f hf
          rcases List.mem_cons.1 hf with rfl | hf
          · exact hkeep
          · exact hkeep' f hf

/-- C10, on an engine with events due at 10 and 20 whose first action schedules an event due at
15 and with horizon 12: `RunUntil` returns having fired the event due at 10 only; the events due
at 20 and at 15, the second added during the call, are still queued. -/
theorem RunUntil_keeps_later_entries_witness :
    (∀ (a : Option Int) (x : Unit) (s : Simulation (Option Int)),
      ∃ added, (scheduleCode a x s).2.queue = s.queue ++ added) ∧
    (∃ r, ((Simulation.new 0 : Simulation (Option Int)).ScheduleAll
        [⟨10, some 15⟩, ⟨20, none⟩]).RunUntil scheduleCode 12 3 () = some r ∧
      (∀ f ∈ r.fired, f.entry.Event.When ≤ 12) ∧
      List.Sublist (((Simulation.new 0 : Simulation (Option Int)).ScheduleAll
        [⟨10, some 15⟩, ⟨20, none⟩]).queue.filter (fun y => decide (12 < y.Event.When)))
        r.sim.queue ∧
      (∀ f ∈ r.fired,
        List.Sublist (f.after.queue.filter (fun y => decide (12 < y.Event.When))) r.sim.queue) ∧
      (r.returned = true →
        r.sim.queue = [] ∨ ∃ m, r.sim.queue.Peek = some m ∧ 12 < m.Event.When)) ∧
    (((Simulation.new 0 : Simulation (Option Int)).ScheduleAll
        [⟨10, some 15⟩, ⟨20, none⟩]).RunUntil scheduleCode 12 3 ()).map
        (fun r => (r.fired.map (fun f => f.entry), r.returned)) =
      some ([⟨0, ⟨10, some 15⟩⟩], true) ∧
    (((Simulation.new 0 : Simulation (Option Int)).ScheduleAll
        [⟨10, some 15⟩, ⟨20, none⟩]).RunUntil scheduleCode 12 3 ()).map
        (fun r => (r.sim.queue, r.sim.queue.Peek)) =
      some ([⟨1, ⟨20, none⟩⟩, ⟨2, ⟨15, none⟩⟩], some ⟨2, ⟨15, none⟩⟩) :=
  have hpush : ∀ (a : Option Int) (x : Unit) (s : Simulation (Option Int)),
      ∃ added, (scheduleCode a x s).2.queue = s.queue ++ added := by
    intro a x s
    cases a with
    | none => exact ⟨[], (List.append_nil _).symm⟩
    | some w => exact ⟨[{ Order := s.nextID, Event := ⟨w, none⟩ }], rfl⟩
  ⟨hpush, RunUntil_keeps_later_entries scheduleCode hpush 12 3 () _, by decide, by decide⟩

end horizon

/-! ## One call of `Step` or `Schedule` -/

section calls

variable {α σ : Type}

/-- With actions that are not nil and that return, `Step` with panics is `Step`. -/
theorem StepOrPanic_ofRunner (run : Runner α σ) (x : σ) (s : Simulation α) :
    s.StepOrPanic (Caller.ofRunner run) x =
      (s.Step run x).map (fun r => StepEnd.returns r.1 r.2.1 r.2.2) := by
  unfold Simulation.StepOrPanic Simulation.Step
  by_cases h : s.queue.Len = 0
  · simp [h]
  · simp only [h, if_false]
    cases s.queue.Pop with
    | none => rfl
    | some p => rfl

/-- C7 (amended): on every engine whose queue is empty `Step` returns false and leaves the
state outside the engine and the whole engine (`Now`, `nextID`, `queue`) as they were; on
every engine whose queue is not empty `Step` pops the minimum entry, sets the clock and calls
the entry's action, and then either the call returns and `Step` returns true, or the call
panics (the `Action` is nil, or the action panics) and `Step` panics without returning; with
actions that are not nil and that return, `Step` returns true on every queue that is not
empty, and whenever `Step` returns, it returns false exactly when the queue was empty. -/
theorem Step_false_iff_empty_or_panics (call : Caller α σ) (run : Runner α σ) (x : σ)
    (s : Simulation α) :
    (s.queue.Len = 0 → s.StepOrPanic call x = some (StepEnd.returns false x s)) ∧
    (s.queue.Len ≠ 0 → ∃ m q, s.queue.Pop = some (m, q) ∧
      ((∃ x' s', call m.Event.Action x
            (({ s with queue := q } : Simulation α).advance m.Event.When) =
              Called.returns x' s' ∧
          s.StepOrPanic call x = some (StepEnd.returns true x' s')) ∨
        (∃ x' s', call m.Event.Action x
            (({ s with queue := q } : Simulation α).advance m.Event.When) =
              Called.panics x' s' ∧
          s.StepOrPanic call x = some (StepEnd.panics x' s')))) ∧
    (s.queue.Len ≠ 0 →
      ∃ x' s', s.StepOrPanic (Caller.ofRunner run) x = some (StepEnd.returns true x' s') ∧
        s.Step run x = some (true, x', s')) ∧
    (∀ b x' s', s.StepOrPanic call x = some (StepEnd.returns b x' s') →
      (b = false ↔ s.queue.Len = 0)) := by
  have hcases : (s.queue.Len = 0 ∧ s.StepOrPanic call x = some (StepEnd.returns false x s)) ∨
      (s.queue.Len ≠ 0 ∧ ∃ m q, s.queue.Pop = some (m, q) ∧
        ((∃ x' s', call m.Event.Action x
              (({ s with queue := q } : Simulation α).advance m.Event.When) =
                Called.returns x' s' ∧
            s.StepOrPanic call x = some (StepEnd.returns true x' s')) ∨
          (∃ x' s', call m.Event.Action x
              (({ s with queue := q } : Simulation α).advance m.Event.When) =
                Called.panics x' s' ∧
            s.StepOrPanic call x = some (StepEnd.panics x' s')))) := by
    by_cases h : s.queue.Len = 0
    · exact Or.inl ⟨h, by simp [Simulation.StepOrPanic, h]⟩
    · refine Or.inr ⟨h, ?_⟩
      have hne : s.queue ≠ [] := fun h0 => h ((Len_eq_zero_iff _).2 h0)
      obtain ⟨m, q, hpop⟩ := Pop_isSome_of_ne_nil s.queue hne
      refine ⟨m, q, hpop, ?_⟩
      cases hc : call m.Event.Action x
          (({ s with queue := q } : Simulation α).advance m.Event.When) with
      | returns x' s' =>
        exact Or.inl ⟨x', s', rfl, by simp [Simulation.StepOrPanic, h, hpop, hc]⟩
      | panics x' s' =>
        exact Or.inr ⟨x', s', rfl, by simp [Simulation.StepOrPanic, h, hpop, hc]⟩
  refine ⟨?_, ?_, ?_, ?_⟩
  · intro h
    rcases hcases with ⟨_, h1⟩ | ⟨h1, _⟩
    · exact h1
    · exact absurd h h1
  · intro h
    rcases hcases with ⟨h1, _⟩ | ⟨_, h1⟩
    · exact absurd h1 h
    · exact h1
  · intro h
    rcases Step_total run x s with ⟨hnil, _⟩ | ⟨m, q, _, hstep⟩
    · exact absurd ((Len_eq_zero_iff _).2 hnil) h
    · exact ⟨_, _, by rw [StepOrPanic_ofRunner, hstep]; rfl, hstep⟩
  · intro b x' s' hb
    rcases hcases with ⟨h0, h1⟩ | ⟨h0, m, q, _, ⟨y, t, _, h1⟩ | ⟨y, t, _, h1⟩⟩
    · rw [h1] at hb
      cases hb
      exact ⟨fun _ => h0, fun _ => rfl⟩
    · rw [h1] at hb
      cases hb
      exact ⟨fun hf => (by cases hf), fun h => absurd h h0⟩
    · rw [h1] at hb
      cases hb

/-- C7 (amended), on `Simulation{}` with `Now = 3` (empty queue), on the example scenario
(three queued events, whose actions write to a log) and on an engine whose only event, due at
5, has a nil `Action`. -/
theorem Step_false_iff_empty_or_panics_witness :
    ((Simulation.new 3 : Simulation (Option Nat)).queue.Len = 0 ∧
      (Simulation.new 3 : Simulation (Option Nat)).StepOrPanic logOrNil [] =
        some (StepEnd.returns false [] { Now := 3, nextID := 0, queue := [] })) ∧
    (scenario.queue.Len ≠ 0 ∧
      ∃ x' s', scenario.StepOrPanic (Caller.ofRunner logCode) [] =
          some (StepEnd.returns true x' s') ∧
        scenario.Step logCode [] = some (true, x', s')) ∧
    scenario.Step logCode [] =
      some (true, [1], { Now := 5, nextID := 3, queue := [⟨0, ⟨10, 0⟩⟩, ⟨2, ⟨5, 2⟩⟩] }) ∧
    ((Simulation.new 0 : Simulation (Option Nat)).ScheduleAll
        [⟨10, some 0⟩, ⟨5, some 1⟩]).StepOrPanic logOrNil [] =
      some (StepEnd.returns true [1] { Now := 5, nextID := 2, queue := [⟨0, ⟨10, some 0⟩⟩] }) ∧
    ((Simulation.new 0 : Simulation (Option Nat)).ScheduleAll
        [⟨10, some 0⟩, ⟨5, none⟩]).StepOrPanic logOrNil [] =
      some (StepEnd.panics [] { Now := 5, nextID := 2, queue := [⟨0, ⟨10, some 0⟩⟩] }) :=
  ⟨⟨by decide,
      (Step_false_iff_empty_or_panics logOrNil (fun _ x s => (x, s)) []
        (Simulation.new 3)).1 (by decide)⟩,
    ⟨by decide,
      (Step_false_iff_empty_or_panics (Caller.ofRunner logCode) logCode [] scenario).2.2.1
        (by decide)⟩,
    by decide, by decide, by decide⟩

/-- C7 as stated fails for a nil `Action`: `Schedule` accepts an event whose `Action` is nil;
on the engine `Simulation{}` with that one event, due at 5, the queue is not empty and `Step`
does not return true: it panics in the call of the action, after the entry was popped and the
clock was set to 5. -/
theorem Step_panics_on_nil_Action :
    ((Simulation.new 0 : Simulation (Option Nat)).Schedule ⟨5, none⟩).queue.Len ≠ 0 ∧
    ((Simulation.new 0 : Simulation (Option Nat)).Schedule ⟨5, none⟩).StepOrPanic logOrNil [] =
      some (StepEnd.panics [] { Now := 5, nextID := 1, queue := [] }) ∧
    ¬ ∃ x' s',
      ((Simulation.new 0 : Simulation (Option Nat)).Schedule ⟨5, none⟩).StepOrPanic logOrNil [] =
        some (StepEnd.returns true x' s') := by
  refine ⟨by decide, by decide, ?_⟩
  rintro ⟨x', s', h⟩
  have h2 : ((Simulation.new 0 : Simulation (Option Nat)).Schedule ⟨5, none⟩).StepOrPanic
      logOrNil [] = some (StepEnd.panics [] { Now := 5, nextID := 1, queue := [] }) := by
    decide
  rw [h2] at h
  cases h

/-- C8 (amended): on every engine and for every event `e`, whatever its `When`, `Schedule(e)`
puts the one entry `{Order: old nextID, Event: e}` into the queue and keeps the entries already
queued, in their order; the queue is one longer; `Now` is unchanged; `nextID` goes up by exactly
one when it is below the largest `int`, and becomes the smallest `int` when it is the largest. -/
theorem Schedule_adds_one_entry (s : Simulation α) (e : ScheduledEvent α) :
    (s.Schedule e).queue.Perm ({ Order := s.nextID, Event := e } :: s.queue) ∧
    List.Sublist s.queue (s.Schedule e).queue ∧
    (s.Schedule e).queue.Len = s.queue.Len + 1 ∧
    (s.Schedule e).Now = s.Now ∧
    (minInt ≤ s.nextID → s.nextID < maxInt → (s.Schedule e).nextID = s.nextID + 1) ∧
    (s.nextID = maxInt → (s.Schedule e).nextID = minInt) := by
  refine ⟨?_, ?_, ?_, rfl, ?_, ?_⟩
  · rw [Schedule_queue]
    exact List.perm_append_singleton _ _
  · rw [Schedule_queue]
    exact List.sublist_append_left _ _
  · rw [Schedule_queue]
    simp [eventQueue.Len]
  · intro h1 h2
    rw [Schedule_nextID]
    unfold minInt at h1
    unfold maxInt at h2
    exact wrapInt_of_range (by omega) (by omega)
  · intro h
    rw [Schedule_nextID, h]
    decide

/-- C8 (amended), on `Simulation{}` with `Now = 7` and an event due at 3, before `Now`, and on
an engine with `nextID` at the largest `int`. -/
theorem Schedule_adds_one_entry_witness :
    (minInt ≤ (Simulation.new 7 : Simulation Nat).nextID ∧
      (Simulation.new 7 : Simulation Nat).nextID < maxInt ∧
      ((Simulation.new 7 : Simulation Nat).Schedule ⟨3, 0⟩).nextID =
        (Simulation.new 7 : Simulation Nat).nextID + 1) ∧
    (({ Now := 0, nextID := maxInt, queue := [] } : Simulation Nat).nextID = maxInt ∧
      (({ Now := 0, nextID := maxInt, queue := [] } : Simulation Nat).Schedule ⟨3, 0⟩).nextID =
        minInt) ∧
    (Simulation.new 7 : Simulation Nat).Schedule ⟨3, 0⟩ =
      { Now := 7, nextID := 1, queue := [⟨0, ⟨3, 0⟩⟩] } :=
  ⟨⟨by decide, by decide,
      (Schedule_adds_one_entry (Simulation.new 7) ⟨3, 0⟩).2.2.2.2.1 (by decide) (by decide)⟩,
    ⟨rfl, (Schedule_adds_one_entry { Now := 0, nextID := maxInt, queue := [] } ⟨3, 0⟩).2.2.2.2.2
      rfl⟩,
    by decide⟩

/-- C8 as stated fails where `nextID` wraps: on an engine with `nextID = 2^63 - 1`, the largest
`int`, `Schedule` leaves `nextID = -2^63`, which is not `nextID + 1`. -/
theorem Schedule_nextID_wraps :
    (({ Now := 0, nextID := 2 ^ 63 - 1, queue := [] } : Simulation Nat).Schedule ⟨3, 0⟩).nextID =
      -(2 ^ 63) ∧
    (({ Now := 0, nextID := 2 ^ 63 - 1, queue := [] } : Simulation Nat).Schedule ⟨3, 0⟩).nextID ≠
      ({ Now := 0, nextID := 2 ^ 63 - 1, queue := [] } : Simulation Nat).nextID + 1 := by
  decide

/-- `Pop` after a `Push`: the pushed entry comes out when it is below the old minimum, and
stays in the queue, behind all others, when it is not. -/
theorem Pop_Push (n : scheduledEvent α) : ∀ (q : eventQueue α),
    (q.Push n).Pop =
      match q.Pop with
      | none => some (n, [])
      | some (m, r) => if eventQueue.Less n m then some (n, q) else some (m, r.Push n)
  | [] => rfl
  | a :: q => by
    have ih := Pop_Push n q
    have hcons : eventQueue.Push (a :: q) n = a :: eventQueue.Push q n := rfl
    rw [hcons, eventQueue.Pop, ih]
    cases hq : eventQueue.Pop q with
    | none =>
      have hnil : q = [] := (Pop_eq_none_iff q).1 hq
      subst hnil
      simp only [eventQueue.Pop]
    | some p =>
      obtain ⟨m, r⟩ := p
      simp only [eventQueue.Pop, hq]
      by_cases h1 : eventQueue.Less n m
      · by_cases h2 : eventQueue.Less m a
        · have h3 : eventQueue.Less n a := Less_trans h1 h2
          simp [h1, h2, h3, eventQueue.Push]
        · by_cases h3 : eventQueue.Less n a <;> simp [h1, h2, h3, eventQueue.Push]
      · by_cases h2 : eventQueue.Less m a
        · simp [h1, h2, eventQueue.Push]
        · have h3 : ¬ eventQueue.Less n a := not_Less_trans h2 h1
          simp [h1, h2, h3, eventQueue.Push]

/-- An entry pushed with a `When` before that of every queued entry is the next one popped. -/
theorem Pop_Push_of_earlier (n : scheduledEvent α) (q : eventQueue α)
    (h : ∀ y ∈ q, n.Event.When < y.Event.When) : (q.Push n).Pop = some (n, q) := by
  rw [Pop_Push]
  cases hq : eventQueue.Pop q with
  | none => rw [(Pop_eq_none_iff q).1 hq]
  | some p =>
    obtain ⟨m, r⟩ := p
    have hl : eventQueue.Less n m := Or.inl (h m (Pop_mem q hq))
    simp [hl]

/-- The queue that `Pop` leaves is the queue without the first occurrence of the popped
entry. -/
theorem Pop_erase [DecidableEq α] : ∀ (l : eventQueue α) {m : scheduledEvent α}
    {r : eventQueue α}, l.Pop = some (m, r) → r = l.erase m
  | [], _, _, h => by cases h
  | e :: q, m, r, h => by
    rcases Pop_cons_cases e q h with ⟨rfl, rfl, _⟩ | ⟨r', hq, rfl, hl⟩
    · simp
    · have hne : e ≠ m := fun he => Less_irrefl m (by rw [he] at hl; exact hl)
      rw [List.erase_cons_tail (by simpa using hne), ← Pop_erase q hq]

/-- A `Step` call on a queue that is not empty, followed by `k` more. -/
theorem StepN_succ_of_Pop (run : Runner α σ) (k : Nat) (x : σ) (s : Simulation α)
    {m : scheduledEvent α} {q : eventQueue α} (hpop : s.queue.Pop = some (m, q)) :
    s.StepN run (k + 1) x =
      ((run m.Event.Action x (({ s with queue := q } : Simulation α).advance
          m.Event.When)).2.StepN run k
        (run m.Event.Action x (({ s with queue := q } : Simulation α).advance
          m.Event.When)).1).map
        (fun r => { r with fired :=
          { entry := m, clock := max s.Now m.Event.When,
            after := (run m.Event.Action x (({ s with queue := q } : Simulation α).advance
              m.Event.When)).2 } :: r.fired }) := by
  rw [Simulation.StepN, Step_of_Pop run x s hpop]
  simp only [if_true, firing_of_Pop s _ hpop, List.singleton_append]

/-- Any number of `Step` calls can be made, and each returns. -/
theorem StepN_total (run : Runner α σ) :
    ∀ (k : Nat) (x : σ) (s : Simulation α), ∃ r, s.StepN run k x = some r
  | 0, x, s => ⟨_, rfl⟩
  | k + 1, x, s => by
    rcases Step_total run x s with ⟨_, hstep⟩ | ⟨m, q, _, hstep⟩
    · obtain ⟨r, hr⟩ := StepN_total run k x s
      rw [Simulation.StepN, hstep]
      simp only [hr, Option.map_some']
      exact ⟨_, rfl⟩
    · obtain ⟨r, hr⟩ := StepN_total run k
        (run m.Event.Action x (({ s with queue := q } : Simulation α).advance
          m.Event.When)).1
        (run m.Event.Action x (({ s with queue := q } : Simulation α).advance
          m.Event.When)).2
      rw [Simulation.StepN, hstep]
      simp only [hr, Option.map_some']
      exact ⟨_, rfl⟩

/-- While an entry `n` due before every entry of `q` is queued together with the entries of
`q`, and the actions only add entries to the queue: each `Step`, up to and including the one
that pops `n`, pops an entry that is not one of `q` and not after `n`, and returns with the
entries of `q` still queued. -/
theorem StepN_keeps_queued [DecidableEq α] (run : Runner α σ)
    (hadd : ∀ a x s, ∃ l, (run a x s).2.queue = s.queue ++ l)
    (q : eventQueue α) (n : scheduledEvent α)
    (hearly : ∀ y ∈ q, n.Event.When < y.Event.When) :
    ∀ (k : Nat) (x : σ) (s : Simulation α), n ∈ s.queue → q.Sublist s.queue →
      ∃ r, s.StepN run k x = some r ∧
        ∀ pre g post, r.fired = pre ++ g :: post → (∀ h ∈ pre, h.entry ≠ n) →
          g.entry ∉ q ∧ ¬ eventQueue.Less n g.entry ∧ q.Sublist g.after.queue
  | 0, x, s, _, _ => by
    refine ⟨_, rfl, ?_⟩
    intro pre g post h
    have h' : ([] : List (Firing α)) = pre ++ g :: post := h
    simp at h'
  | k + 1, x, s, hn, hsub => by
    have hne : s.queue ≠ [] := List.ne_nil_of_mem hn
    obtain ⟨m, rest, hpop⟩ := Pop_isSome_of_ne_nil s.queue hne
    have hstep := StepN_succ_of_Pop run k x s hpop
    have hmin : ¬ eventQueue.Less n m := Pop_min s.queue hpop n hn
    have hmq : m ∉ q := fun hm => hmin (Or.inl (hearly m hm))
    have hrest : q.Sublist rest := by
      rw [Pop_erase s.queue hpop]
      have := hsub.erase m
      rwa [List.erase_of_not_mem hmq] at this
    obtain ⟨l, hl⟩ := hadd m.Event.Action x
      (({ s with queue := rest } : Simulation α).advance m.Event.When)
    rw [advance_queue] at hl
    have hl' : (run m.Event.Action x
        (({ s with queue := rest } : Simulation α).advance m.Event.When)).2.queue =
        rest ++ l := hl
    have hafter : q.Sublist (run m.Event.Action x
        (({ s with queue := rest } : Simulation α).advance m.Event.When)).2.queue := by
      rw [hl']
      exact hrest.trans (List.sublist_append_left _ _)
    generalize run m.Event.Action x
      (({ s with queue := rest } : Simulation α).advance m.Event.When) = res
      at hstep hl' hafter
    by_cases hmn : m = n
    · obtain ⟨r, hr⟩ := StepN_total run k res.1 res.2
      rw [hr] at hstep
      refine ⟨_, hstep, ?_⟩
      intro pre g post h hpre
      cases pre with
      | nil =>
        have h' := (List.cons.inj h).1
        rw [← h']
        exact ⟨hmq, hmin, hafter⟩
      | cons g₀ pre' =>
        have h' := (List.cons.inj h).1
        exact absurd (by rw [← h']; exact hmn) (hpre g₀ (List.mem_cons_self _ _))
    · have hn' : n ∈ res.2.queue := by
        rw [hl', Pop_erase s.queue hpop]
        exact List.mem_append_left _ ((List.mem_erase_of_ne (Ne.symm hmn)).2 hn)
      obtain ⟨r, hr, hrest'⟩ := StepN_keeps_queued run hadd q n hearly k res.1 res.2 hn' hafter
      rw [hr] at hstep
      refine ⟨_, hstep, ?_⟩
      intro pre g post h hpre
      cases pre with
      | nil =>
        have h' := (List.cons.inj h).1
        rw [← h']
        exact ⟨hmq, hmin, hafter⟩
      | cons g₀ pre' =>
        exact hrest' pre' g post (List.cons.inj h).2
          (fun h' hh => hpre h' (List.mem_cons_of_mem _ hh))

/-- C9 (amended): on every engine, when the action fired by a `Step` call schedules new events
(its `Schedule` calls leave the entries `added` behind the entries `q` still queued), one of
them, `n`, with a `When` earlier than the `When` of every entry still queued: that `Step`
returns true; the next `Step` call returns true having popped an entry `n'` that is one of the
new ones, is not after `n` in `(When, Order)` order and is none of the entries queued before,
and having invoked the action of `n'`; the entries queued before are all still queued; `n'` is
`n` itself when `n` is before every other new entry in `(When, Order)` order, as it is when
`n` is the only new entry; and while the actions only add entries to the queue, each later
`Step`, up to and including the one that pops `n`, pops an entry that is none of the entries
queued before and returns with all of those still queued. -/
theorem Step_fires_earlier_scheduled_next [DecidableEq α] (run : Runner α σ) (x : σ)
    (s : Simulation α) (m : scheduledEvent α) (q : eventQueue α)
    (hpop : s.queue.Pop = some (m, q)) (added : List (scheduledEvent α))
    (hact : (run m.Event.Action x
        (({ s with queue := q } : Simulation α).advance m.Event.When)).2.queue = q ++ added)
    (n : scheduledEvent α) (hn : n ∈ added)
    (hearly : ∀ y ∈ q, n.Event.When < y.Event.When) :
    ∃ x₁ s₁, s.Step run x = some (true, x₁, s₁) ∧ s₁.queue = q ++ added ∧
      (∃ n' rest, s₁.queue.Pop = some (n', rest) ∧ s₁.queue.Peek = some n' ∧
        n' ∈ added ∧ n' ∉ q ∧ ¬ eventQueue.Less n n' ∧ q.Sublist rest ∧
        ((∀ z ∈ added, z = n ∨ eventQueue.Less n z) → n' = n) ∧
        s₁.Step run x₁ = some (true,
          (run n'.Event.Action x₁
            (({ s₁ with queue := rest } : Simulation α).advance n'.Event.When)).1,
          (run n'.Event.Action x₁
            (({ s₁ with queue := rest } : Simulation α).advance n'.Event.When)).2)) ∧
      ((∀ a x s, ∃ l, (run a x s).2.queue = s.queue ++ l) →
        ∀ k, ∃ r, s₁.StepN run k x₁ = some r ∧
          ∀ pre g post, r.fired = pre ++ g :: post → (∀ h ∈ pre, h.entry ≠ n) →
            g.entry ∉ q ∧ ¬ eventQueue.Less n g.entry ∧ q.Sublist g.after.queue) := by
  have hstep := Step_of_Pop run x s hpop
  generalize run m.Event.Action x
    (({ s with queue := q } : Simulation α).advance m.Event.When) = res at hstep hact
  have hnq : n ∈ res.2.queue := by
    rw [hact]
    exact List.mem_append_right _ hn
  have hsub : q.Sublist res.2.queue := by
    rw [hact]
    exact List.sublist_append_left _ _
  refine ⟨res.1, res.2, hstep, hact, ?_, ?_⟩
  · obtain ⟨n', rest, hpop₁⟩ := Pop_isSome_of_ne_nil res.2.queue (List.ne_nil_of_mem hnq)
    have hmin : ¬ eventQueue.Less n n' := Pop_min res.2.queue hpop₁ n hnq
    have hq : n' ∉ q := fun h => hmin (Or.inl (hearly n' h))
    have hmem : n' ∈ added := by
      have := Pop_mem res.2.queue hpop₁
      rw [hact] at this
      rcases List.mem_append.1 this with h | h
      · exact absurd h hq
      · exact h
    refine ⟨n', rest, hpop₁, Peek_of_Pop hpop₁, hmem, hq, hmin, ?_, ?_,
      Step_of_Pop run res.1 res.2 hpop₁⟩
    · rw [Pop_erase res.2.queue hpop₁]
      have := hsub.erase n'
      rwa [List.erase_of_not_mem hq] at this
    · intro hall
      rcases hall n' hmem with h | h
      · exact h
      · exact absurd h hmin
  · intro hadd k
    exact StepN_keeps_queued run hadd q n hearly k res.1 res.2 hnq hsub

/-- C9 (amended), on an engine with `Now = 0` and events due at 10 and 20: the action of the
event due at 10 schedules events due at 15 and at 30; the next `Step` pops the event due at 15
and invokes its action with `Now = 15`, before the event due at 20. -/
theorem Step_fires_earlier_scheduled_next_witness :
    (∃ x₁ s₁,
      ((Simulation.new 0 : Simulation (List Int)).ScheduleAll
        [⟨10, [15, 30]⟩, ⟨20, []⟩]).Step scheduleEach [] = some (true, x₁, s₁) ∧
      s₁.queue = [⟨1, ⟨20, []⟩⟩] ++ [⟨2, ⟨15, []⟩⟩, ⟨3, ⟨30, []⟩⟩] ∧
      (∃ n' rest, s₁.queue.Pop = some (n', rest) ∧ s₁.queue.Peek = some n' ∧
        n' ∈ [(⟨2, ⟨15, []⟩⟩ : scheduledEvent (List Int)), ⟨3, ⟨30, []⟩⟩] ∧
        n' ∉ [(⟨1, ⟨20, []⟩⟩ : scheduledEvent (List Int))] ∧
        ¬ eventQueue.Less ⟨2, ⟨15, []⟩⟩ n' ∧
        List.Sublist [(⟨1, ⟨20, []⟩⟩ : scheduledEvent (List Int))] rest ∧
        ((∀ z ∈ [(⟨2, ⟨15, []⟩⟩ : scheduledEvent (List Int)), ⟨3, ⟨30, []⟩⟩],
            z = ⟨2, ⟨15, []⟩⟩ ∨ eventQueue.Less ⟨2, ⟨15, []⟩⟩ z) → n' = ⟨2, ⟨15, []⟩⟩) ∧
        s₁.Step scheduleEach x₁ = some (true,
          (scheduleEach n'.Event.Action x₁
            (({ s₁ with queue := rest } : Simulation (List Int)).advance n'.Event.When)).1,
          (scheduleEach n'.Event.Action x₁
            (({ s₁ with queue := rest } : Simulation (List Int)).advance n'.Event.When)).2)) ∧
      ((∀ a x s, ∃ l, (scheduleEach a x s).2.queue = s.queue ++ l) →
        ∀ k, ∃ r, s₁.StepN scheduleEach k x₁ = some r ∧
          ∀ pre g post, r.fired = pre ++ g :: post →
            (∀ h ∈ pre, h.entry ≠ ⟨2, ⟨15, []⟩⟩) →
              g.entry ∉ [(⟨1, ⟨20, []⟩⟩ : scheduledEvent (List Int))] ∧
              ¬ eventQueue.Less ⟨2, ⟨15, []⟩⟩ g.entry ∧
              List.Sublist [(⟨1, ⟨20, []⟩⟩ : scheduledEvent (List Int))] g.after.queue)) ∧
    (∀ z ∈ [(⟨2, ⟨15, []⟩⟩ : scheduledEvent (List Int)), ⟨3, ⟨30, []⟩⟩],
      z = ⟨2, ⟨15, []⟩⟩ ∨ eventQueue.Less ⟨2, ⟨15, []⟩⟩ z) ∧
    (∀ a (x : List Int) s, ∃ l, (scheduleEach a x s).2.queue = s.queue ++ l) ∧
    (((Simulation.new 0 : Simulation (List Int)).ScheduleAll
        [⟨10, [15, 30]⟩, ⟨20, []⟩]).StepN scheduleEach 2 []).map
        (fun r => (r.ext, r.sim, r.returned)) =
      some ([10, 15],
        { Now := 15, nextID := 4, queue := [⟨1, ⟨20, []⟩⟩, ⟨3, ⟨30, []⟩⟩] }, true) ∧
    (((Simulation.new 0 : Simulation (List Int)).ScheduleAll
        [⟨10, [15, 30]⟩, ⟨20, []⟩]).StepAll scheduleEach 5 []).map
        (fun r => (r.ext, r.sim.queue, r.returned)) =
      some ([10, 15, 20, 30], [], true) :=
  ⟨Step_fires_earlier_scheduled_next scheduleEach []
      ((Simulation.new 0 : Simulation (List Int)).ScheduleAll [⟨10, [15, 30]⟩, ⟨20, []⟩])
      ⟨0, ⟨10, [15, 30]⟩⟩ [⟨1, ⟨20, []⟩⟩] (by decide) [⟨2, ⟨15, []⟩⟩, ⟨3, ⟨30, []⟩⟩]
      (by decide) ⟨2, ⟨15, []⟩⟩ (by decide) (by decide),
    by decide,
    fun a x s => ⟨stamp s.nextID (a.map (fun w => ⟨w, []⟩)), by
      show (s.ScheduleAll _).queue = _
      rw [ScheduleAll_queue]⟩,
    by decide, by decide⟩

/-- C9 as stated fails when the action schedules two such events: on an engine with `Now = 0`
and events due at 1 and 10, the action of the event due at 1 schedules an event due at 3 and
then an event due at 2, both earlier than the event due at 10 that is still queued; the next
`Step` pops the event due at 2 and invokes its action with `Now = 2`, and the newly scheduled
event due at 3 is still queued when it returns. -/
theorem Step_fires_other_scheduled_next :
    (((Simulation.new 0 : Simulation (List Int)).ScheduleAll [⟨1, [3, 2]⟩, ⟨10, []⟩]).StepN
        scheduleEach 1 []).map (fun r => (r.ext, r.sim.Now, r.sim.queue)) =
      some ([1], 1, [⟨1, ⟨10, []⟩⟩, ⟨2, ⟨3, []⟩⟩, ⟨3, ⟨2, []⟩⟩]) ∧
    (((Simulation.new 0 : Simulation (List Int)).ScheduleAll [⟨1, [3, 2]⟩, ⟨10, []⟩]).StepN
        scheduleEach 1 []).map (fun r => r.sim.queue.Peek) = some (some ⟨3, ⟨2, []⟩⟩) ∧
    (((Simulation.new 0 : Simulation (List Int)).ScheduleAll [⟨1, [3, 2]⟩, ⟨10, []⟩]).StepN
        scheduleEach 2 []).map (fun r => (r.ext, r.sim.Now, r.sim.queue)) =
      some ([1, 2], 2, [⟨1, ⟨10, []⟩⟩, ⟨2, ⟨3, []⟩⟩]) :=
  ⟨by decide, by decide, by decide⟩

end calls

/-! ## The ticker -/

section ticker

variable {β σ : Type} [DecidableEq β]

end ticker

section tickerRun

variable {β σ : Type}

end tickerRun



/-! ## Guards and the clock inside `Step` and `RunUntil` -/

section guards

variable {α σ : Type}

theorem Pop_of_Peek {q : eventQueue α} {m : scheduledEvent α} (h : q.Peek = some m) :
    ∃ r, q.Pop = some (m, r) := by
  unfold eventQueue.Peek at h
  cases hq : q.Pop with
  | none => rw [hq] at h; cases h
  | some p =>
    obtain ⟨m', r⟩ := p
    rw [hq] at h
    simp only [Option.map_some', Option.some.injEq] at h
    exact ⟨r, by rw [← h]⟩

/-- C13: on every engine whose queue is not empty, with minimum entry `m`, `Step` pops `m` and
invokes its action on an engine whose `Now` is `max(old Now, m.When)`: it is `m.When` when that
is strictly after the old `Now` and the old `Now` otherwise, so it is neither before the old
`Now` nor before `m.When`. -/
theorem Step_invokes_action_at_max (run : Runner α σ) (x : σ) (s : Simulation α)
    (m : scheduledEvent α) (hpeek : s.queue.Peek = some m) :
    ∃ q, s.queue.Pop = some (m, q) ∧
      s.Step run x = some (true,
        (run m.Event.Action x (({ s with queue := q } : Simulation α).advance m.Event.When)).1,
        (run m.Event.Action x (({ s with queue := q } : Simulation α).advance m.Event.When)).2) ∧
      (({ s with queue := q } : Simulation α).advance m.Event.When).Now =
        max s.Now m.Event.When ∧
      (s.Now < m.Event.When →
        (({ s with queue := q } : Simulation α).advance m.Event.When).Now = m.Event.When) ∧
      (m.Event.When ≤ s.Now →
        (({ s with queue := q } : Simulation α).advance m.Event.When).Now = s.Now) ∧
      s.Now ≤ (({ s with queue := q } : Simulation α).advance m.Event.When).Now ∧
      m.Event.When ≤ (({ s with queue := q } : Simulation α).advance m.Event.When).Now := by
  obtain ⟨q, hpop⟩ := Pop_of_Peek hpeek
  refine ⟨q, hpop, Step_of_Pop run x s hpop, advance_Now _ _, ?_, ?_, ?_, ?_⟩
  · intro h
    rw [advance_Now]
    exact max_eq_right (le_of_lt h)
  · intro h
    rw [advance_Now]
    exact max_eq_left h
  · rw [advance_Now]
    exact le_max_left _ _
  · rw [advance_Now]
    exact le_max_right _ _

/-- C13, on an engine with `Now = 7` and one event due at 3, in the past: the action is invoked
with `Now = 7`; and on an engine with `Now = 2` and one event due at 3 the action is invoked
with `Now = 3`. -/
theorem Step_invokes_action_at_max_witness :
    ((Simulation.new 7 : Simulation Int).Schedule ⟨3, 0⟩).queue.Peek = some ⟨0, ⟨3, 0⟩⟩ ∧
    (∃ q, ((Simulation.new 7 : Simulation Int).Schedule ⟨3, 0⟩).queue.Pop =
        some (⟨0, ⟨3, 0⟩⟩, q) ∧
      ((Simulation.new 7 : Simulation Int).Schedule ⟨3, 0⟩).Step setNow () = some (true,
        (setNow 0 () (({ (Simulation.new 7 : Simulation Int).Schedule ⟨3, 0⟩ with queue := q } :
          Simulation Int).advance 3)).1,
        (setNow 0 () (({ (Simulation.new 7 : Simulation Int).Schedule ⟨3, 0⟩ with queue := q } :
          Simulation Int).advance 3)).2) ∧
      (({ (Simulation.new 7 : Simulation Int).Schedule ⟨3, 0⟩ with queue := q } :
          Simulation Int).advance 3).Now = max 7 3 ∧
      (((Simulation.new 7 : Simulation Int).Schedule ⟨3, 0⟩).Now < 3 →
        (({ (Simulation.new 7 : Simulation Int).Schedule ⟨3, 0⟩ with queue := q } :
          Simulation Int).advance 3).Now = 3) ∧
      ((3 : Int) ≤ ((Simulation.new 7 : Simulation Int).Schedule ⟨3, 0⟩).Now →
        (({ (Simulation.new 7 : Simulation Int).Schedule ⟨3, 0⟩ with queue := q } :
          Simulation Int).advance 3).Now =
          ((Simulation.new 7 : Simulation Int).Schedule ⟨3, 0⟩).Now) ∧
      ((Simulation.new 7 : Simulation Int).Schedule ⟨3, 0⟩).Now ≤
        (({ (Simulation.new 7 : Simulation Int).Schedule ⟨3, 0⟩ with queue := q } :
          Simulation Int).advance 3).Now ∧
      (3 : Int) ≤ (({ (Simulation.new 7 : Simulation Int).Schedule ⟨3, 0⟩ with queue := q } :
          Simulation Int).advance 3).Now) ∧
    (((Simulation.new 7 : Simulation Int).Schedule ⟨3, 0⟩).StepN logCode 1 []).map
        (fun r => (r.fired.map (fun g => (g.entry.Event.When, g.clock)), r.sim.Now)) =
      some ([(3, 7)], 7) ∧
    (((Simulation.new 2 : Simulation Int).Schedule ⟨3, 0⟩).StepN logCode 1 []).map
        (fun r => (r.fired.map (fun g => (g.entry.Event.When, g.clock)), r.sim.Now)) =
      some ([(3, 3)], 3) :=
  ⟨by decide,
    Step_invokes_action_at_max setNow () ((Simulation.new 7 : Simulation Int).Schedule ⟨3, 0⟩)
      ⟨0, ⟨3, 0⟩⟩ (by decide),
    by decide, by decide⟩

/-- `RunUntil` never reads an empty queue, whatever the actions do. -/
theorem RunUntil_total (run : Runner α σ) (T : Int) :
    ∀ (fuel : Nat) (x : σ) (s : Simulation α), ∃ r, s.RunUntil run T fuel x = some r
  | 0, x, s => ⟨⟨[], x, s, false⟩, rfl⟩
  | fuel + 1, x, s => by
    by_cases hnil : s.queue = []
    · exact ⟨_, RunUntil_of_nil run T fuel x s hnil⟩
    · obtain ⟨m, q, hpop⟩ := Pop_isSome_of_ne_nil s.queue hnil
      by_cases hlate : T < m.Event.When
      · exact ⟨_, RunUntil_of_late run T fuel x s hpop hlate⟩
      · rw [RunUntil_of_early run T fuel x s hpop (not_lt.1 hlate)]
        obtain ⟨r, hr⟩ := RunUntil_total run T fuel
          (run m.Event.Action x (({ s with queue := q } : Simulation α).advance m.Event.When)).1
          (run m.Event.Action x (({ s with queue := q } : Simulation α).advance m.Event.When)).2
        rw [hr]
        exact ⟨_, rfl⟩

/-- C15: on every engine, so on every engine reached from `Simulation{}` by `Schedule`, `Step`
and `RunUntil` calls, and whatever the actions do, `Step` and `RunUntil` never call `Pop` or
`Peek` on an empty queue (they never give `none`): both check `Len() != 0` first, and when
`Len() != 0` both `Pop` and `Peek` have an entry to return. -/
theorem Pop_and_Peek_guarded (run : Runner α σ) (x : σ) (s : Simulation α) :
    (∃ res, s.Step run x = some res) ∧
    (∀ T fuel, ∃ r, s.RunUntil run T fuel x = some r) ∧
    (s.queue.Len ≠ 0 → ∃ m q, s.queue.Pop = some (m, q) ∧ s.queue.Peek = some m) := by
  refine ⟨?_, fun T fuel => RunUntil_total run T fuel x s, ?_⟩
  · rcases Step_total run x s with ⟨_, h⟩ | ⟨m, q, _, h⟩
    · exact ⟨_, h⟩
    · exact ⟨_, h⟩
  · intro h
    have hne : s.queue ≠ [] := fun h0 => h ((Len_eq_zero_iff _).2 h0)
    obtain ⟨m, q, hpop⟩ := Pop_isSome_of_ne_nil s.queue hne
    exact ⟨m, q, hpop, Peek_of_Pop hpop⟩

/-- C15, on the example scenario, whose queue holds three entries. -/
theorem Pop_and_Peek_guarded_witness :
    scenario.queue.Len ≠ 0 ∧
    ∃ m q, scenario.queue.Pop = some (m, q) ∧ scenario.queue.Peek = some m :=
  ⟨by decide, (Pop_and_Peek_guarded logCode [] scenario).2.2 (by decide)⟩

/-- The loop of `RunUntil` as the spec words it does what the loop in the source does. -/
theorem RunUntil_eq_RunUntilSpec (run : Runner α σ) (T : Int) :
    ∀ (fuel : Nat) (x : σ) (s : Simulation α),
      s.RunUntil run T fuel x = s.RunUntilSpec run T fuel x
  | 0, _, _ => rfl
  | fuel + 1, x, s => by
    by_cases hnil : s.queue = []
    · rw [RunUntil_of_nil run T fuel x s hnil]
      simp [Simulation.RunUntilSpec, eventQueue.Len, hnil]
    · obtain ⟨m, q, hpop⟩ := Pop_isSome_of_ne_nil s.queue hnil
      have hne : ¬ (s.queue.Len = 0) := fun h0 => hnil ((Len_eq_zero_iff _).1 h0)
      by_cases hlate : T < m.Event.When
      · rw [RunUntil_of_late run T fuel x s hpop hlate]
        have hgt : m.Event.When > T := hlate
        simp [Simulation.RunUntilSpec, hne, Peek_of_Pop hpop, hgt]
      · rw [RunUntil_of_early run T fuel x s hpop (not_lt.1 hlate)]
        have hgt : ¬ (m.Event.When > T) := hlate
        rw [Simulation.RunUntilSpec]
        simp only [hne, if_false, Peek_of_Pop hpop, hgt, Step_of_Pop run x s hpop,
          firing_of_Pop s _ hpop, List.singleton_append]
        rw [RunUntil_eq_RunUntilSpec run T fuel]

/-- C16: on every engine, for every horizon and whatever the actions do, the `Step` call in the
loop of `RunUntil` returns true: where the loop calls `Step` the queue is not empty (`Peek`
has returned an entry and has left the queue as it was), so the break after `!s.Step()` is
never taken, and `RunUntil` does what the loop without that break does. -/
theorem RunUntil_Step_returns_true (run : Runner α σ) (T : Int) (x : σ) (s : Simulation α) :
    (∀ m, s.queue.Len ≠ 0 → s.queue.Peek = some m → ¬ (m.Event.When > T) →
      ∃ x' s', s.Step run x = some (true, x', s')) ∧
    (∀ fuel, s.RunUntil run T fuel x = s.RunUntilSpec run T fuel x) := by
  refine ⟨?_, fun fuel => RunUntil_eq_RunUntilSpec run T fuel x s⟩
  intro m _ hpeek _
  obtain ⟨q, hpop⟩ := Pop_of_Peek hpeek
  exact ⟨_, _, Step_of_Pop run x s hpop⟩

/-- C16, on the example scenario with horizon 7: the first entry, due at 5, is not after the
horizon, and the `Step` call the loop makes returns true. -/
theorem RunUntil_Step_returns_true_witness :
    scenario.queue.Len ≠ 0 ∧ scenario.queue.Peek = some ⟨1, ⟨5, 1⟩⟩ ∧
    ¬ ((⟨1, ⟨5, 1⟩⟩ : scheduledEvent Nat).Event.When > 7) ∧
    (∃ x' s', scenario.Step logCode [] = some (true, x', s')) ∧
    scenario.RunUntil logCode 7 4 [] = scenario.RunUntilSpec logCode 7 4 [] :=
  ⟨by decide, by decide, by decide,
    (RunUntil_Step_returns_true logCode 7 [] scenario).1 ⟨1, ⟨5, 1⟩⟩ (by decide) (by decide)
      (by decide),
    (RunUntil_Step_returns_true logCode 7 [] scenario).2 4⟩

/-- C19: on every engine and for every horizon, when the actions do not assign `Now`,
`RunUntil` cut short after any number of iterations, and so `RunUntil` when it returns, leaves
`Now` at most `max(Now before the call, horizon)`, and not before the `Now` it started
with. -/
theorem RunUntil_Now_le_horizon (run : Runner α σ)
    (hnow : ∀ a x s, (run a x s).2.Now = s.Now) (T : Int) (fuel : Nat) (x : σ)
    (s : Simulation α) :
    ∃ r, s.RunUntil run T fuel x = some r ∧ r.sim.Now ≤ max s.Now T ∧ s.Now ≤ r.sim.Now := by
  induction fuel generalizing x s with
  | zero => exact ⟨⟨[], x, s, false⟩, rfl, le_max_left _ _, le_refl _⟩
  | succ fuel ih =>
    by_cases hnil : s.queue = []
    · exact ⟨_, RunUntil_of_nil run T fuel x s hnil, le_max_left _ _, le_refl _⟩
    · obtain ⟨m, q, hpop⟩ := Pop_isSome_of_ne_nil s.queue hnil
      by_cases hlate : T < m.Event.When
      · exact ⟨_, RunUntil_of_late run T fuel x s hpop hlate, le_max_left _ _, le_refl _⟩
      · have hearly : m.Event.When ≤ T := not_lt.1 hlate
        have hrun := RunUntil_of_early run T fuel x s hpop hearly
        have hN : (run m.Event.Action x
            (({ s with queue := q } : Simulation α).advance m.Event.When)).2.Now =
            max s.Now m.Event.When := by
          rw [hnow, advance_Now]
        generalize run m.Event.Action x
          (({ s with queue := q } : Simulation α).advance m.Event.When) = res at hrun hN
        obtain ⟨r, hr, hle, hge⟩ := ih res.1 res.2
        rw [hN] at hle hge
        refine ⟨{ r with fired :=
            { entry := m, clock := max s.Now m.Event.When, after := res.2 } :: r.fired },
          by rw [hrun, hr]; rfl, ?_, ?_⟩
        · show r.sim.Now ≤ max s.Now T
          refine le_trans hle ?_
          simp only [max_le_iff, le_max_iff]
          omega
        · show s.Now ≤ r.sim.Now
          exact le_trans (le_max_left _ _) hge

/-- C19, on the example scenario, where `Now` starts at 0: `RunUntil(7)` returns with
`Now = 5`, which is at most `max(0, 7)`. -/
theorem RunUntil_Now_le_horizon_witness :
    (∀ (a : Nat) (x : List Nat) (s : Simulation Nat), (logCode a x s).2.Now = s.Now) ∧
    (∃ r, scenario.RunUntil logCode 7 4 [] = some r ∧ r.sim.Now ≤ max scenario.Now 7 ∧
      scenario.Now ≤ r.sim.Now) ∧
    (scenario.RunUntil logCode 7 4 []).map (fun r => (r.sim.Now, r.returned)) =
      some (5, true) :=
  ⟨fun _ _ _ => rfl, RunUntil_Now_le_horizon logCode (fun _ _ _ => rfl) 7 4 [] scenario,
    by decide⟩

end guards

section bound

variable {α σ : Type}

/-- C20: on every engine whose queued actions schedule nothing and for every horizon,
`RunUntil` returns within `Len() + 1` passes through its loop, the last of which leaves the loop:
it makes at most `Len()` iterations that call `Step`, one per entry fired, and each of them
leaves the queue exactly one entry shorter. -/
theorem RunUntil_terminates_within_Len (run : Runner α σ) (T : Int) (x : σ) (s : Simulation α)
    (hq : ∀ y ∈ s.queue, ∀ x' s', (run y.Event.Action x' s').2.queue = s'.queue) :
    ∃ r, s.RunUntil run T (s.queue.Len + 1) x = some r ∧ r.returned = true ∧
      r.fired.length ≤ s.queue.Len ∧
      r.sim.queue.Len + r.fired.length = s.queue.Len ∧
      r.fired.map (fun g => g.after.queue.Len) =
        (List.range r.fired.length).map (fun i => s.queue.Len - (i + 1)) := by
  generalize hn : s.queue.Len = n
  induction n generalizing x s with
  | zero =>
    have hnil : s.queue = [] := (Len_eq_zero_iff _).1 hn
    exact ⟨_, RunUntil_of_nil run T 0 x s hnil, rfl, le_refl _, by simp [hn], rfl⟩
  | succ n ih =>
    have hne : s.queue ≠ [] := by
      intro h0
      rw [h0] at hn
      cases hn
    obtain ⟨m, q, hpop⟩ := Pop_isSome_of_ne_nil s.queue hne
    by_cases hlate : T < m.Event.When
    · exact ⟨_, RunUntil_of_late run T (n + 1) x s hpop hlate, rfl, Nat.zero_le _,
        by simp [hn], rfl⟩
    · have hearly : m.Event.When ≤ T := not_lt.1 hlate
      have hlen : q.Len = n := by
        have h1 := Pop_length s.queue hpop
        have h2 : s.queue.length = n + 1 := hn
        show q.length = n
        omega
      have hrun := RunUntil_of_early run T (n + 1) x s hpop hearly
      have hq1 : (run m.Event.Action x
          (({ s with queue := q } : Simulation α).advance m.Event.When)).2.queue = q := by
        rw [hq m (Pop_mem s.queue hpop), advance_queue]
      generalize run m.Event.Action x
        (({ s with queue := q } : Simulation α).advance m.Event.When) = res at hrun hq1
      obtain ⟨r, hr, hret, hle, hsum, hlens⟩ := ih res.1 res.2
        (by
          intro y hy
          rw [hq1] at hy
          exact hq y ((Pop_sublist s.queue hpop).subset hy))
        (by rw [hq1]; exact hlen)
      refine ⟨{ r with fired :=
          { entry := m, clock := max s.Now m.Event.When, after := res.2 } :: r.fired },
        by rw [hrun, hr]; rfl, hret, ?_, ?_, ?_⟩
      · show (r.fired.length + 1) ≤ n + 1
        omega
      · show r.sim.queue.Len + (r.fired.length + 1) = n + 1
        omega
      · show List.map (fun g => g.after.queue.Len) (_ :: r.fired) = _
        rw [List.map_cons, hlens, List.length_cons, List.range_succ_eq_map, List.map_cons,
          List.map_map, hq1, hlen]
        congr 1
        apply List.map_congr_left
        intro i _
        simp only [Function.comp_apply, Nat.succ_eq_add_one]
        omega

/-- C20, on the example scenario, whose three actions only write to a log: with horizon 7
`RunUntil` returns within four passes, having made two iterations that call `Step`, which
left queues of two and of one entry. -/
theorem RunUntil_terminates_within_Len_witness :
    (∀ y ∈ scenario.queue, ∀ (x' : List Nat) (s' : Simulation Nat),
      (logCode y.Event.Action x' s').2.queue = s'.queue) ∧
    (∃ r, scenario.RunUntil logCode 7 (scenario.queue.Len + 1) [] = some r ∧
      r.returned = true ∧ r.fired.length ≤ scenario.queue.Len ∧
      r.sim.queue.Len + r.fired.length = scenario.queue.Len ∧
      r.fired.map (fun g => g.after.queue.Len) =
        (List.range r.fired.length).map (fun i => scenario.queue.Len - (i + 1))) ∧
    (scenario.RunUntil logCode 7 4 []).map
        (fun r => (r.fired.length, r.fired.map (fun g => g.after.queue.Len), r.returned)) =
      some (2, [2, 1], true) ∧
    (scenario.RunUntil logCode 10 4 []).map
        (fun r => (r.fired.length, r.fired.map (fun g => g.after.queue.Len), r.returned)) =
      some (3, [2, 1, 0], true) ∧
    (scenario.RunUntil logCode 10 3 []).map (fun r => (r.fired.length, r.returned)) =
      some (3, false) :=
  ⟨fun _ _ _ _ => rfl,
    RunUntil_terminates_within_Len logCode 7 [] scenario (fun _ _ _ _ => rfl),
    by decide, by decide, by decide⟩

end bound

/-! ## The ticker from one `Step` to the next -/

section tickerSteps

variable {β σ : Type}

/-- When the callbacks only add entries to the queue, so does every closure, and the ticker's
closure adds an entry that carries it. -/
theorem runAct_adds {u : β → σ → Simulation (Act β) → σ × Simulation (Act β)}
    (hadd : ∀ b x s, ∃ added, (u b x s).2.queue = s.queue ++ added) (a : Act β) (x : σ)
    (s : Simulation (Act β)) :
    ∃ added, (runAct u a x s).2.queue = s.queue ++ added ∧
      ∀ d f, a = Act.nextRun d f → ∃ y ∈ added, y.Event.Action = Act.nextRun d f := by
  cases a with
  | user b =>
    obtain ⟨added, h⟩ := hadd b x s
    exact ⟨added, h, fun d f hd => nomatch hd⟩
  | nextRun d' f' =>
    obtain ⟨added, h⟩ := hadd f' x s
    refine ⟨added ++
      [{ Order := (u f' x s).2.nextID,
         Event := { When := timeAdd (u f' x s).2.Now d', Action := Act.nextRun d' f' } }], ?_, ?_⟩
    · show ((u f' x s).2.Schedule _).queue = _
      rw [Schedule_queue, h, List.append_assoc]
    · intro d f hd
      cases hd
      exact ⟨_, List.mem_append_right _ (List.mem_singleton_self _), rfl⟩

/-- One `Step` on an engine that holds an event of the ticker: it returns true, it fires one
entry, and an event of the ticker is queued when it returns. -/
theorem Step_keeps_ticker {u : β → σ → Simulation (Act β) → σ × Simulation (Act β)}
    (hadd : ∀ b x s, ∃ added, (u b x s).2.queue = s.queue ++ added) (d : Int) (f : β) (x : σ)
    (s : Simulation (Act β)) (h : ∃ y ∈ s.queue, y.Event.Action = Act.nextRun d f) :
    ∃ x' s', s.Step (runAct u) x = some (true, x', s') ∧ (s.firing s').length = 1 ∧
      ∃ y ∈ s'.queue, y.Event.Action = Act.nextRun d f := by
  obtain ⟨y, hy, hya⟩ := h
  obtain ⟨m, q, hpop⟩ := Pop_isSome_of_ne_nil s.queue (List.ne_nil_of_mem hy)
  refine ⟨_, _, Step_of_Pop (runAct u) x s hpop, by rw [firing_of_Pop s _ hpop]; rfl, ?_⟩
  obtain ⟨added, hq, htick⟩ := runAct_adds hadd m.Event.Action x
    (({ s with queue := q } : Simulation (Act β)).advance m.Event.When)
  rw [advance_queue] at hq
  rw [hq]
  by_cases hm : m.Event.Action = Act.nextRun d f
  · obtain ⟨z, hz, hza⟩ := htick d f hm
    exact ⟨z, List.mem_append_right _ hz, hza⟩
  · have hyq : y ∈ q := by
      rcases List.mem_cons.1 ((Pop_perm s.queue hpop).subset hy) with rfl | h'
      · exact absurd hya hm
      · exact h'
    exact ⟨y, List.mem_append_left _ hyq, hya⟩

/-- C12: on every engine on which `Ticker` has been called, when the callbacks only add entries
to the queue (none removes events), each of any number of subsequent `Step` calls returns true
having fired an entry, and when it returns the queue holds a pending event of that ticker; so
the queue is never empty and the next `Step` returns true again. -/
theorem Ticker_never_stops (u : β → σ → Simulation (Act β) → σ × Simulation (Act β))
    (hadd : ∀ b x s, ∃ added, (u b x s).2.queue = s.queue ++ added) (start d : Int) (f : β)
    (x : σ) (s : Simulation (Act β)) (n : Nat) :
    ∃ r, (Ticker s start d f).StepN (runAct u) n x = some r ∧ r.fired.length = n ∧
      (∀ g ∈ r.fired, ∃ y ∈ g.after.queue, y.Event.Action = Act.nextRun d f) ∧
      (∃ y ∈ r.sim.queue, y.Event.Action = Act.nextRun d f) ∧
      r.sim.queue.Len ≠ 0 ∧
      ∃ x' s', r.sim.Step (runAct u) r.ext = some (true, x', s') := by
  have hstart : ∃ y ∈ (Ticker s start d f).queue, y.Event.Action = Act.nextRun d f :=
    ⟨{ Order := s.nextID, Event := { When := start, Action := Act.nextRun d f } },
      List.mem_append_right _ (List.mem_singleton_self _), rfl⟩
  generalize Ticker s start d f = s₀ at hstart
  induction n generalizing x s₀ with
  | zero =>
    obtain ⟨x', s', hstep, _, _⟩ := Step_keeps_ticker hadd d f x s₀ hstart
    obtain ⟨y, hy, _⟩ := hstart
    refine ⟨⟨[], x, s₀, true⟩, rfl, rfl, (fun _ h => nomatch h), ⟨y, hy, by assumption⟩, ?_,
      x', s', hstep⟩
    intro h0
    rw [(Len_eq_zero_iff _).1 h0] at hy
    cases hy
  | succ n ih =>
    obtain ⟨x', s', hstep, hone, hkeep⟩ := Step_keeps_ticker hadd d f x s₀ hstart
    obtain ⟨r, hr, hlen, hafter, hlast, hne, hnext⟩ := ih x' s' hkeep
    refine ⟨{ r with fired := s₀.firing s' ++ r.fired }, ?_, ?_, ?_, hlast, hne, hnext⟩
    · rw [Simulation.StepN, hstep]
      simp only [hr, Option.map_some', if_true]
    · show (s₀.firing s' ++ r.fired).length = n + 1
      rw [List.length_append, hone, hlen]
      omega
    · intro g hg
      rcases List.mem_append.1 hg with hg | hg
      · obtain ⟨m, q, hpop⟩ : ∃ m q, s₀.queue.Pop = some (m, q) := by
          obtain ⟨y, hy, _⟩ := hstart
          exact Pop_isSome_of_ne_nil s₀.queue (List.ne_nil_of_mem hy)
        rw [firing_of_Pop s₀ _ hpop] at hg
        rw [List.mem_singleton.1 hg]
        exact hkeep
      · exact hafter g hg

/-- C12, on `Simulation{}` with a ticker with `start = 0` and `period = 5` and an unrelated
event due at 3: each of seven `Step` calls fires an entry and leaves the ticker's event
queued. -/
theorem Ticker_never_stops_witness :
    (∀ (b : Nat) (x : List Int) (s : Simulation (Act Nat)),
      ∃ added, (callbacks b x s).2.queue = s.queue ++ added) ∧
    (∃ r, (Ticker ((Simulation.new 0 : Simulation (Act Nat)).Schedule ⟨3, Act.user 1⟩) 0 5
        0).StepN (runAct callbacks) 7 [] = some r ∧ r.fired.length = 7 ∧
      (∀ g ∈ r.fired, ∃ y ∈ g.after.queue, y.Event.Action = Act.nextRun 5 0) ∧
      (∃ y ∈ r.sim.queue, y.Event.Action = Act.nextRun 5 0) ∧
      r.sim.queue.Len ≠ 0 ∧
      ∃ x' s', r.sim.Step (runAct callbacks) r.ext = some (true, x', s')) ∧
    ((Ticker ((Simulation.new 0 : Simulation (Act Nat)).Schedule ⟨3, Act.user 1⟩) 0 5
        0).StepN (runAct callbacks) 7 []).map
        (fun r => (r.fired.map (fun g => g.after.queue.map (fun y => y.Event.When)),
          r.sim.queue)) =
      some ([[3, 5], [5], [10], [15], [20], [25], [30]], [⟨7, ⟨30, Act.nextRun 5 0⟩⟩]) :=
  have hadd : ∀ (b : Nat) (x : List Int) (s : Simulation (Act Nat)),
      ∃ added, (callbacks b x s).2.queue = s.queue ++ added := by
    intro b x s
    cases b with
    | zero => exact ⟨[], (List.append_nil _).symm⟩
    | succ b => exact ⟨[], (List.append_nil _).symm⟩
  ⟨hadd, Ticker_never_stops callbacks hadd 0 5 0 [] _ 7, by
    set_option maxRecDepth 4096 in
    decide⟩

end tickerSteps

section tickerNext

variable {β σ : Type}

/-- C14 (amended): when a ticker's event due at `When` fires on an engine whose `Now` is not
after `When`, the callback does not assign `Now`, and `When` and `When + period` are instants a
`time.Time` can hold, `Step` returns true and the last thing it has done is the ticker's call
`Schedule` of an event due at exactly `When + period`, carrying the ticker's closure: its
`When` minus the `When` of the event that fired is the period. -/
theorem Ticker_next_due_one_period_later
    (u : β → σ → Simulation (Act β) → σ × Simulation (Act β)) (d : Int) (f : β)
    (hf : ∀ x s, (u f x s).2.Now = s.Now) (x : σ) (s : Simulation (Act β))
    (m : scheduledEvent (Act β)) (q : eventQueue (Act β)) (hpop : s.queue.Pop = some (m, q))
    (hm : m.Event.Action = Act.nextRun d f) (hnow : s.Now ≤ m.Event.When)
    (hw : inTime m.Event.When) (hwd : inTime (m.Event.When + d)) :
    ∃ x' s' e, s.Step (runAct u) x = some (true, x', s') ∧
      s' = (u f x (({ s with queue := q } : Simulation (Act β)).advance m.Event.When)).2.Schedule
        e ∧
      e.Action = Act.nextRun d f ∧ e.When = m.Event.When + d ∧
      e.When - m.Event.When = d := by
  refine ⟨_, _, { When := m.Event.When + d, Action := Act.nextRun d f },
    Step_of_Pop (runAct u) x s hpop, ?_, rfl, rfl, by simp⟩
  rw [hm]
  show (u f x _).2.Schedule _ = _
  rw [hf, advance_Now, max_eq_right hnow, timeAdd_exact _ d hw hwd]

/-- C14 (amended), on `Simulation{}` with a ticker with `start = 0` and `period = 5` whose
callback logs `Now`: after the first `Step` the ticker's event due at 5 is queued. -/
theorem Ticker_next_due_one_period_later_witness :
    (∀ (x : List Int) (s : Simulation (Act Nat)), (callbacks 0 x s).2.Now = s.Now) ∧
    (Ticker (Simulation.new 0 : Simulation (Act Nat)) 0 5 0).queue.Pop =
      some (⟨0, ⟨0, Act.nextRun 5 0⟩⟩, []) ∧
    (Ticker (Simulation.new 0 : Simulation (Act Nat)) 0 5 0).Now ≤ 0 ∧
    inTime 0 ∧ inTime (0 + 5) ∧
    (∃ x' s' e, (Ticker (Simulation.new 0 : Simulation (Act Nat)) 0 5 0).Step
        (runAct callbacks) [] = some (true, x', s') ∧
      s' = (callbacks 0 [] (({ Ticker (Simulation.new 0 : Simulation (Act Nat)) 0 5 0 with
        queue := [] } : Simulation (Act Nat)).advance 0)).2.Schedule e ∧
      e.Action = Act.nextRun 5 0 ∧ e.When = 0 + 5 ∧ e.When - 0 = 5) ∧
    (Ticker (Simulation.new 0 : Simulation (Act Nat)) 0 5 0).Step (runAct callbacks) [] =
      some (true, [0], { Now := 0, nextID := 2, queue := [⟨1, ⟨5, Act.nextRun 5 0⟩⟩] }) :=
  ⟨fun _ _ => rfl, by decide, by decide, by decide, by decide,
    Ticker_next_due_one_period_later callbacks 5 0 (fun _ _ => rfl) []
      (Ticker (Simulation.new 0 : Simulation (Act Nat)) 0 5 0) ⟨0, ⟨0, Act.nextRun 5 0⟩⟩ []
      (by decide) rfl (by decide) (by decide) (by decide),
    by decide⟩

/-- C14 as stated fails when `Now` is past the `When` of the ticker's event, when the callback
assigns `Now`, and where `Time.Add` saturates.  On an engine with `Now = 10`, the event due at
0 of a ticker with `period = 5` fires and the ticker schedules its next event for 15, and
15 - 0 is not 5.  On an engine with `Now = 0`, with a callback that adds 100 to `Now`, the next
event is due at 105.  When the event that fires is due at the largest whole second a
`time.Time` holds and the period is five seconds, the next event is due at that same
instant. -/
theorem Ticker_next_due_off_period :
    (Ticker (Simulation.new 10 : Simulation (Act Nat)) 0 5 0).queue =
      [⟨0, ⟨0, Act.nextRun 5 0⟩⟩] ∧
    (Ticker (Simulation.new 10 : Simulation (Act Nat)) 0 5 0).Step (runAct callbacks) [] =
      some (true, [10], { Now := 10, nextID := 2, queue := [⟨1, ⟨15, Act.nextRun 5 0⟩⟩] }) ∧
    (15 : Int) - 0 ≠ 5 ∧
    (Ticker (Simulation.new 0 : Simulation (Act Nat)) 0 5 0).Step (runAct logNowAndJump) [] =
      some (true, [0], { Now := 100, nextID := 2, queue := [⟨1, ⟨105, Act.nextRun 5 0⟩⟩] }) ∧
    (105 : Int) - 0 ≠ 5 ∧
    (Ticker (Simulation.new 0 : Simulation (Act Nat)) topTime 5000000000 0).Step
        (runAct callbacks) [] =
      some (true, [topTime],
        { Now := topTime, nextID := 2, queue := [⟨1, ⟨topTime, Act.nextRun 5000000000 0⟩⟩] }) ∧
    topTime - topTime ≠ 5000000000 := by
  decide

/-- C11 (amended): when a ticker's event fires, `Step` returns true and the last thing it has
done is the ticker's call `Schedule` of its next event, due at `Now.Add(d)` for the `Now` the
callback has left.  The `Step` call that directly follows pops that event and invokes the
ticker's closure again when every other entry queued at that point is due after it; this is so
for every negative period `d` when the event that fired was not due before `Now`, `When + d` is
an instant a `time.Time` can hold, and the callback left the engine as it was. -/
theorem Ticker_fires_again_next_Step
    (u : β → σ → Simulation (Act β) → σ × Simulation (Act β)) (d : Int) (f : β) (x : σ)
    (s : Simulation (Act β)) (m : scheduledEvent (Act β)) (q : eventQueue (Act β))
    (hpop : s.queue.Pop = some (m, q)) (hm : m.Event.Action = Act.nextRun d f) :
    ∃ x₁ s₁ c,
      c = (u f x (({ s with queue := q } : Simulation (Act β)).advance m.Event.When)).2 ∧
      s.Step (runAct u) x = some (true, x₁, s₁) ∧
      s₁ = c.Schedule { When := timeAdd c.Now d, Action := Act.nextRun d f } ∧
      (((∀ y ∈ c.queue, timeAdd c.Now d < y.Event.When) ∨
          (c = ({ s with queue := q } : Simulation (Act β)).advance m.Event.When ∧ d < 0 ∧
            s.Now ≤ m.Event.When ∧ inTime m.Event.When ∧ inTime (m.Event.When + d))) →
        s₁.queue.Pop = some (⟨c.nextID, ⟨timeAdd c.Now d, Act.nextRun d f⟩⟩, c.queue) ∧
        s₁.Step (runAct u) x₁ = some (true,
          (runAct u (Act.nextRun d f) x₁
            (({ s₁ with queue := c.queue } : Simulation (Act β)).advance (timeAdd c.Now d))).1,
          (runAct u (Act.nextRun d f) x₁
            (({ s₁ with queue := c.queue } : Simulation (Act β)).advance
              (timeAdd c.Now d))).2)) := by
  have hstep := Step_of_Pop (runAct u) x s hpop
  have hres : (runAct u m.Event.Action x
      (({ s with queue := q } : Simulation (Act β)).advance m.Event.When)).2 =
      (u f x (({ s with queue := q } : Simulation (Act β)).advance m.Event.When)).2.Schedule
        { When := timeAdd (u f x (({ s with queue := q } : Simulation (Act β)).advance
            m.Event.When)).2.Now d,
          Action := Act.nextRun d f } := by
    rw [hm]
    rfl
  generalize runAct u m.Event.Action x
    (({ s with queue := q } : Simulation (Act β)).advance m.Event.When) = res at hstep hres
  refine ⟨res.1, res.2, _, rfl, hstep, hres, ?_⟩
  generalize hc : (u f x (({ s with queue := q } : Simulation (Act β)).advance
    m.Event.When)).2 = c at hres
  intro hcase
  have hearly : ∀ y ∈ c.queue, timeAdd c.Now d < y.Event.When := by
    rcases hcase with h | ⟨hsame, hd, hnow, hw, hwd⟩
    · exact h
    · intro y hy
      rw [hsame, advance_queue] at hy
      have h1 : m.Event.When ≤ y.Event.When :=
        When_le_of_not_Less (Pop_min s.queue hpop y ((Pop_sublist s.queue hpop).subset hy))
      rw [hsame, advance_Now, max_eq_right hnow, timeAdd_exact _ d hw hwd]
      omega
  have hpop₁ : res.2.queue.Pop =
      some (⟨c.nextID, ⟨timeAdd c.Now d, Act.nextRun d f⟩⟩, c.queue) := by
    rw [hres, Schedule_queue]
    exact Pop_Push_of_earlier _ c.queue hearly
  exact ⟨hpop₁, Step_of_Pop (runAct u) res.1 res.2 hpop₁⟩

/-- C11 (amended), on `Simulation{}` with a ticker with `start = 0` and `period = -5`: the
ticker's event fires, and fires again on the next `Step`; with another event due at 0
scheduled after the ticker was made, the ticker's event fires on each of three `Step` calls,
before the other event, and the callback's log shows three invocations. -/
theorem Ticker_fires_again_next_Step_witness :
    (∃ x₁ s₁ c,
      c = (callbacks 0 [] (({ Ticker (Simulation.new 0 : Simulation (Act Nat)) 0 (-5) 0 with
        queue := [] } : Simulation (Act Nat)).advance 0)).2 ∧
      (Ticker (Simulation.new 0 : Simulation (Act Nat)) 0 (-5) 0).Step
        (runAct callbacks) [] = some (true, x₁, s₁) ∧
      s₁ = c.Schedule { When := timeAdd c.Now (-5), Action := Act.nextRun (-5) 0 } ∧
      s₁.queue.Pop = some (⟨c.nextID, ⟨timeAdd c.Now (-5), Act.nextRun (-5) 0⟩⟩, c.queue) ∧
      s₁.Step (runAct callbacks) x₁ = some (true,
        (runAct callbacks (Act.nextRun (-5) 0) x₁
          (({ s₁ with queue := c.queue } : Simulation (Act Nat)).advance
            (timeAdd c.Now (-5)))).1,
        (runAct callbacks (Act.nextRun (-5) 0) x₁
          (({ s₁ with queue := c.queue } : Simulation (Act Nat)).advance
            (timeAdd c.Now (-5)))).2)) ∧
    (((Ticker (Simulation.new 0 : Simulation (Act Nat)) 0 (-5) 0).Schedule
        ⟨0, Act.user 1⟩).StepN (runAct callbacks) 3 []).map
        (fun r => (r.ext,
          r.fired.map (fun g => (g.entry.Event.Action, g.entry.Event.When, g.clock)))) =
      some ([0, 0, 0], [(Act.nextRun (-5) 0, 0, 0), (Act.nextRun (-5) 0, -5, 0),
        (Act.nextRun (-5) 0, -5, 0)]) :=
  ⟨(fun h => by
      obtain ⟨x₁, s₁, c, hc, h1, h2, h3⟩ := h
      have h4 := h3 (Or.inr ⟨hc, by decide, by decide, by decide, by decide⟩)
      exact ⟨x₁, s₁, c, hc, h1, h2, h4.1, h4.2⟩)
      (Ticker_fires_again_next_Step callbacks (-5) 0 []
        (Ticker (Simulation.new 0 : Simulation (Act Nat)) 0 (-5) 0)
        ⟨0, ⟨0, Act.nextRun (-5) 0⟩⟩ [] (by decide) rfl),
    by
      set_option maxRecDepth 8192 in
      decide⟩

/-- C11 as stated fails when another entry is due before the ticker's next event.  With
`period = 0`, a ticker with `start = 0` and an event due at 0 that was scheduled after it: the
ticker's event fires, and the next `Step` fires the other event.  With `period = -5` on an
engine with `Now = 100`, a ticker with `start = 0` and an event due at 50: the ticker's event
fires, its next event is due at 95, and the next `Step` fires the event due at 50.  With a
period of minus five seconds on an engine whose `Now` is the instant at which `Time.Add`
saturates downwards, a ticker starting at that instant and an event due at that instant
scheduled after it: the ticker's next event is due at that same instant, and the next `Step`
fires the other event.  In each case the callback, which logs `Now`, has been invoked once
when the two `Step` calls have returned, and the ticker's next event is still queued. -/
theorem Ticker_not_fired_again :
    (((Ticker (Simulation.new 0 : Simulation (Act Nat)) 0 0 0).Schedule ⟨0, Act.user 1⟩).StepN
        (runAct callbacks) 2 []).map
        (fun r => r.fired.map (fun g => (g.entry.Event.Action, g.entry.Event.When))) =
      some [(Act.nextRun 0 0, 0), (Act.user 1, 0)] ∧
    (((Ticker (Simulation.new 100 : Simulation (Act Nat)) 0 (-5) 0).Schedule
        ⟨50, Act.user 1⟩).StepN (runAct callbacks) 2 []).map
        (fun r => r.fired.map (fun g => (g.entry.Event.Action, g.entry.Event.When))) =
      some [(Act.nextRun (-5) 0, 0), (Act.user 1, 50)] ∧
    (((Ticker (Simulation.new 0 : Simulation (Act Nat)) 0 0 0).Schedule ⟨0, Act.user 1⟩).StepN
        (runAct callbacks) 2 []).map (fun r => (r.ext, r.sim.queue)) =
      some ([0], [⟨2, ⟨0, Act.nextRun 0 0⟩⟩]) ∧
    (((Ticker (Simulation.new 100 : Simulation (Act Nat)) 0 (-5) 0).Schedule
        ⟨50, Act.user 1⟩).StepN (runAct callbacks) 2 []).map (fun r => (r.ext, r.sim.queue)) =
      some ([100], [⟨2, ⟨95, Act.nextRun (-5) 0⟩⟩]) ∧
    (((Ticker (Simulation.new botTime : Simulation (Act Nat)) botTime (-5000000000)
        0).Schedule ⟨botTime, Act.user 1⟩).StepN (runAct callbacks) 1 []).map
        (fun r => (r.ext, r.sim.queue)) =
      some ([botTime], [⟨1, ⟨botTime, Act.user 1⟩⟩,
        ⟨2, ⟨botTime, Act.nextRun (-5000000000) 0⟩⟩]) ∧
    (((Ticker (Simulation.new botTime : Simulation (Act Nat)) botTime (-5000000000)
        0).Schedule ⟨botTime, Act.user 1⟩).StepN (runAct callbacks) 2 []).map
        (fun r => (r.ext, r.sim.queue)) =
      some ([botTime], [⟨2, ⟨botTime, Act.nextRun (-5000000000) 0⟩⟩]) ∧
    inTime botTime ∧ ¬ inTime (botTime + -5000000000) :=
  ⟨by decide, by decide, by decide, by decide, by decide, by decide, by decide, by decide⟩

end tickerNext

/-! ## `RunUntil` twice -/

section twice

variable {α σ : Type}

theorem Run_eta (r : Run α σ) (h : r.returned = true) :
    (⟨r.fired, r.ext, r.sim, true⟩ : Run α σ) = r := by
  cases r
  simp only [] at h
  rw [h]

/-- Once `RunUntil` has returned within some number of iterations, a higher bound on the
number of iterations changes nothing. -/
theorem RunUntil_fuel_mono (run : Runner α σ) (T : Int) :
    ∀ (fuel : Nat) (x : σ) (s : Simulation α) (r : Run α σ),
      s.RunUntil run T fuel x = some r → r.returned = true →
      ∀ k, s.RunUntil run T (fuel + k) x = some r
  | 0, x, s, r, h, hret => by
    simp only [Simulation.RunUntil, Option.some.injEq] at h
    rw [← h] at hret
    cases hret
  | fuel + 1, x, s, r, h, hret => by
    intro k
    have hk : fuel + 1 + k = (fuel + k) + 1 := by omega
    rw [hk]
    by_cases hnil : s.queue = []
    · rw [RunUntil_of_nil run T fuel x s hnil] at h
      rw [RunUntil_of_nil run T (fuel + k) x s hnil]
      exact h
    · obtain ⟨m, q, hpop⟩ := Pop_isSome_of_ne_nil s.queue hnil
      by_cases hlate : T < m.Event.When
      · rw [RunUntil_of_late run T fuel x s hpop hlate] at h
        rw [RunUntil_of_late run T (fuel + k) x s hpop hlate]
        exact h
      · have hearly : m.Event.When ≤ T := not_lt.1 hlate
        rw [RunUntil_of_early run T fuel x s hpop hearly] at h
        rw [RunUntil_of_early run T (fuel + k) x s hpop hearly]
        obtain ⟨r', hr', hrr'⟩ := Option.map_eq_some'.1 h
        have hret' : r'.returned = true := by
          rw [← hrr'] at hret
          exact hret
        rw [RunUntil_fuel_mono run T fuel _ _ r' hr' hret' k, Option.map_some', hrr']

/-- When `RunUntil` has returned, the queue is empty or its minimum is due after the horizon,
whatever the actions do. -/
theorem RunUntil_returned_queue (run : Runner α σ) (T : Int) :
    ∀ (fuel : Nat) (x : σ) (s : Simulation α) (r : Run α σ),
      s.RunUntil run T fuel x = some r → r.returned = true →
      r.sim.queue = [] ∨ ∃ m q, r.sim.queue.Pop = some (m, q) ∧ T < m.Event.When
  | 0, x, s, r, h, hret => by
    simp only [Simulation.RunUntil, Option.some.injEq] at h
    rw [← h] at hret
    cases hret
  | fuel + 1, x, s, r, h, hret => by
    by_cases hnil : s.queue = []
    · rw [RunUntil_of_nil run T fuel x s hnil, Option.some.injEq] at h
      rw [← h]
      exact Or.inl hnil
    · obtain ⟨m, q, hpop⟩ := Pop_isSome_of_ne_nil s.queue hnil
      by_cases hlate : T < m.Event.When
      · rw [RunUntil_of_late run T fuel x s hpop hlate, Option.some.injEq] at h
        rw [← h]
        exact Or.inr ⟨m, q, hpop, hlate⟩
      · rw [RunUntil_of_early run T fuel x s hpop (not_lt.1 hlate)] at h
        obtain ⟨r', hr', hrr'⟩ := Option.map_eq_some'.1 h
        have hret' : r'.returned = true := by
          rw [← hrr'] at hret
          exact hret
        have := RunUntil_returned_queue run T fuel _ _ r' hr' hret'
        rw [← hrr']
        exact this

/-- A call of `RunUntil` on an engine left by a call with the same horizon returns at once. -/
theorem RunUntil_again (run : Runner α σ) (T : Int) (fuel : Nat) (x : σ) (s : Simulation α)
    (r : Run α σ) (h : s.RunUntil run T fuel x = some r) (hret : r.returned = true) (k : Nat) :
    r.sim.RunUntil run T (k + 1) r.ext = some ⟨[], r.ext, r.sim, true⟩ := by
  rcases RunUntil_returned_queue run T fuel x s r h hret with hnil | ⟨m, q, hpop, hlate⟩
  · exact RunUntil_of_nil run T k r.ext r.sim hnil
  · exact RunUntil_of_late run T k r.ext r.sim hpop hlate

/-- `RunUntil(T₁)` and then `RunUntil(T₂)` do what `RunUntil(T₂)` does, for `T₁ ≤ T₂`. -/
theorem RunUntil_then_RunUntil (run : Runner α σ) (T₁ T₂ : Int) (hT : T₁ ≤ T₂) :
    ∀ (f₁ f₂ : Nat) (x : σ) (s : Simulation α) (r₁ r₂ : Run α σ),
      s.RunUntil run T₁ f₁ x = some r₁ → r₁.returned = true →
      r₁.sim.RunUntil run T₂ f₂ r₁.ext = some r₂ → r₂.returned = true →
      s.RunUntil run T₂ (f₁ + f₂) x = some ⟨r₁.fired ++ r₂.fired, r₂.ext, r₂.sim, true⟩
  | 0, f₂, x, s, r₁, r₂, h₁, hret₁, _, _ => by
    simp only [Simulation.RunUntil, Option.some.injEq] at h₁
    rw [← h₁] at hret₁
    cases hret₁
  | f₁ + 1, f₂, x, s, r₁, r₂, h₁, hret₁, h₂, hret₂ => by
    have hstop : s.RunUntil run T₁ (f₁ + 1) x = some ⟨[], x, s, true⟩ →
        s.RunUntil run T₂ (f₁ + 1 + f₂) x =
          some ⟨r₁.fired ++ r₂.fired, r₂.ext, r₂.sim, true⟩ := by
      intro hs
      rw [hs, Option.some.injEq] at h₁
      rw [← h₁] at h₂ ⊢
      have := RunUntil_fuel_mono run T₂ f₂ x s r₂ h₂ hret₂ (f₁ + 1)
      rw [Nat.add_comm f₂ (f₁ + 1)] at this
      rw [this, List.nil_append, Run_eta r₂ hret₂]
    by_cases hnil : s.queue = []
    · exact hstop (RunUntil_of_nil run T₁ f₁ x s hnil)
    · obtain ⟨m, q, hpop⟩ := Pop_isSome_of_ne_nil s.queue hnil
      by_cases hlate : T₁ < m.Event.When
      · exact hstop (RunUntil_of_late run T₁ f₁ x s hpop hlate)
      · have hearly : m.Event.When ≤ T₁ := not_lt.1 hlate
        rw [RunUntil_of_early run T₁ f₁ x s hpop hearly] at h₁
        obtain ⟨r', hr', hrr'⟩ := Option.map_eq_some'.1 h₁
        have hk : f₁ + 1 + f₂ = (f₁ + f₂) + 1 := by omega
        rw [hk, RunUntil_of_early run T₂ (f₁ + f₂) x s hpop (le_trans hearly hT)]
        rw [← hrr'] at hret₁ h₂ ⊢
        rw [RunUntil_then_RunUntil run T₁ T₂ hT f₁ f₂ _ _ r' r₂ hr' hret₁ h₂ hret₂]
        rfl

/-- What `RunUntil(T₂)` does is what `RunUntil(T₁)` and then `RunUntil(T₂)` do, for
`T₁ ≤ T₂`. -/
theorem RunUntil_split (run : Runner α σ) (T₁ T₂ : Int) (hT : T₁ ≤ T₂) :
    ∀ (fuel : Nat) (x : σ) (s : Simulation α) (r : Run α σ),
      s.RunUntil run T₂ fuel x = some r → r.returned = true →
      ∃ r₁ r₂, s.RunUntil run T₁ fuel x = some r₁ ∧ r₁.returned = true ∧
        r₁.sim.RunUntil run T₂ fuel r₁.ext = some r₂ ∧ r₂.returned = true ∧
        r = ⟨r₁.fired ++ r₂.fired, r₂.ext, r₂.sim, true⟩
  | 0, x, s, r, h, hret => by
    simp only [Simulation.RunUntil, Option.some.injEq] at h
    rw [← h] at hret
    cases hret
  | fuel + 1, x, s, r, h, hret => by
    have hstop : s.RunUntil run T₁ (fuel + 1) x = some ⟨[], x, s, true⟩ →
        ∃ r₁ r₂, s.RunUntil run T₁ (fuel + 1) x = some r₁ ∧ r₁.returned = true ∧
          r₁.sim.RunUntil run T₂ (fuel + 1) r₁.ext = some r₂ ∧ r₂.returned = true ∧
          r = ⟨r₁.fired ++ r₂.fired, r₂.ext, r₂.sim, true⟩ := by
      intro hs
      exact ⟨⟨[], x, s, true⟩, r, hs, rfl, h, hret, by
        rw [List.nil_append, Run_eta r hret]⟩
    by_cases hnil : s.queue = []
    · exact hstop (RunUntil_of_nil run T₁ fuel x s hnil)
    · obtain ⟨m, q, hpop⟩ := Pop_isSome_of_ne_nil s.queue hnil
      by_cases hlate : T₁ < m.Event.When
      · exact hstop (RunUntil_of_late run T₁ fuel x s hpop hlate)
      · have hearly : m.Event.When ≤ T₁ := not_lt.1 hlate
        rw [RunUntil_of_early run T₂ fuel x s hpop (le_trans hearly hT)] at h
        obtain ⟨r', hr', hrr'⟩ := Option.map_eq_some'.1 h
        have hret' : r'.returned = true := by
          rw [← hrr'] at hret
          exact hret
        obtain ⟨r₁, r₂, h₁, hret₁, h₂, hret₂, heq⟩ :=
          RunUntil_split run T₁ T₂ hT fuel _ _ r' hr' hret'
        refine ⟨{ r₁ with fired :=
            { entry := m, clock := max s.Now m.Event.When,
              after := (run m.Event.Action x
                (({ s with queue := q } : Simulation α).advance m.Event.When)).2 } :: r₁.fired },
          r₂, ?_, hret₁, ?_, hret₂, ?_⟩
        · rw [RunUntil_of_early run T₁ fuel x s hpop hearly, h₁]
          rfl
        · exact RunUntil_fuel_mono run T₂ fuel _ _ r₂ h₂ hret₂ 1
        · rw [← hrr', heq]
          rfl

end twice

section twiceClaim

variable {α σ : Type}

/-- C18: on every engine, whatever the actions do, and for horizons `T₁ ≤ T₂`: when
`RunUntil(T₁)` and then `RunUntil(T₂)` return, a single `RunUntil(T₂)` returns with the same
engine and outside state, having made the firings of the first call followed by those of the
second; when a single `RunUntil(T₂)` returns, so do `RunUntil(T₁)` and then `RunUntil(T₂)`,
with that result; and a call of `RunUntil` that follows a call with the same horizon returns at
once, having fired nothing and changed nothing. -/
theorem RunUntil_twice_eq_once (run : Runner α σ) (T₁ T₂ : Int) (hT : T₁ ≤ T₂) (x : σ)
    (s : Simulation α) :
    (∀ f₁ f₂ r₁ r₂, s.RunUntil run T₁ f₁ x = some r₁ → r₁.returned = true →
      r₁.sim.RunUntil run T₂ f₂ r₁.ext = some r₂ → r₂.returned = true →
      s.RunUntil run T₂ (f₁ + f₂) x = some ⟨r₁.fired ++ r₂.fired, r₂.ext, r₂.sim, true⟩) ∧
    (∀ fuel r, s.RunUntil run T₂ fuel x = some r → r.returned = true →
      ∃ r₁ r₂, s.RunUntil run T₁ fuel x = some r₁ ∧ r₁.returned = true ∧
        r₁.sim.RunUntil run T₂ fuel r₁.ext = some r₂ ∧ r₂.returned = true ∧
        r = ⟨r₁.fired ++ r₂.fired, r₂.ext, r₂.sim, true⟩) ∧
    (∀ fuel r k, s.RunUntil run T₁ fuel x = some r → r.returned = true →
      r.sim.RunUntil run T₁ (k + 1) r.ext = some ⟨[], r.ext, r.sim, true⟩) :=
  ⟨fun f₁ f₂ r₁ r₂ => RunUntil_then_RunUntil run T₁ T₂ hT f₁ f₂ x s r₁ r₂,
    fun fuel r => RunUntil_split run T₁ T₂ hT fuel x s r,
    fun fuel r k h hret => RunUntil_again run T₁ fuel x s r h hret k⟩

/-- C18, on the example scenario with horizons 7 and 10: `RunUntil(10)` returns, and so do
`RunUntil(7)`, which fires the two 5-events, and then `RunUntil(10)`, which fires the 10-event;
a second `RunUntil(7)` after the first fires nothing. -/
theorem RunUntil_twice_eq_once_witness :
    (7 : Int) ≤ 10 ∧
    (∃ r, scenario.RunUntil logCode 10 4 [] = some r ∧ r.returned = true ∧
      ∃ r₁ r₂, scenario.RunUntil logCode 7 4 [] = some r₁ ∧ r₁.returned = true ∧
        r₁.sim.RunUntil logCode 10 4 r₁.ext = some r₂ ∧ r₂.returned = true ∧
        r = ⟨r₁.fired ++ r₂.fired, r₂.ext, r₂.sim, true⟩) ∧
    (scenario.RunUntil logCode 10 4 []).map (fun r => (r.codes, r.ext, r.sim, r.returned)) =
      some ([1, 2, 0], [1, 2, 0], { Now := 10, nextID := 3, queue := [] }, true) ∧
    ((scenario.RunUntil logCode 7 4 []).bind
        (fun r₁ => (r₁.sim.RunUntil logCode 10 4 r₁.ext).map
          (fun r₂ => (r₁.codes ++ r₂.codes, r₂.ext, r₂.sim, r₁.returned && r₂.returned)))) =
      some ([1, 2, 0], [1, 2, 0], { Now := 10, nextID := 3, queue := [] }, true) ∧
    ((scenario.RunUntil logCode 7 4 []).bind
        (fun r₁ => (r₁.sim.RunUntil logCode 7 1 r₁.ext).map
          (fun r₂ => (r₂.codes, r₂.ext == r₁.ext, r₂.sim == r₁.sim, r₂.returned)))) =
      some ([], true, true, true) :=
  ⟨by decide,
    (RunUntil_drain logCode (fun _ _ _ => rfl) 10 3 [] scenario rfl).elim
      (fun r hr => ⟨r, hr.1, hr.2.1,
        (RunUntil_twice_eq_once logCode 7 10 (by decide) [] scenario).2.1 4 r hr.1 hr.2.1⟩),
    by decide, by decide, by decide⟩

end twiceClaim

/-! ## Identifiers -/

section identifiers

variable {α σ : Type}

theorem WellNumbered_Schedule {s : Simulation α} {n : Nat} (h : WellNumbered s n)
    (hn : (n : Int) + 1 < 2 ^ 63) (e : ScheduledEvent α) :
    WellNumbered (s.Schedule e) (n + 1) := by
  obtain ⟨hid, hlt, hne⟩ := h
  have hnext : (s.Schedule e).nextID = ((n + 1 : Nat) : Int) := by
    rw [Schedule_nextID, hid, wrapInt_of_range (by omega) (by omega)]
    push_cast
    rfl
  refine ⟨hnext, ?_, ?_⟩
  · intro y hy
    rw [hnext]
    rw [Schedule_queue] at hy
    rcases List.mem_append.1 hy with hy | hy
    · have := hlt y hy
      push_cast
      omega
    · rw [List.mem_singleton.1 hy]
      push_cast
      show 0 ≤ s.nextID ∧ s.nextID < (n : Int) + 1
      omega
  · rw [Schedule_queue]
    refine List.pairwise_append.2 ⟨hne, List.pairwise_singleton _ _, ?_⟩
    intro a ha b hb
    rw [List.mem_singleton.1 hb]
    have := hlt a ha
    show a.Order ≠ s.nextID
    omega

theorem WellNumbered_ScheduleAll : ∀ (es : List (ScheduledEvent α)) {s : Simulation α} {n : Nat},
    WellNumbered s n → (n : Int) + es.length < 2 ^ 63 →
    WellNumbered (s.ScheduleAll es) (n + es.length)
  | [], _, _, h, _ => h
  | e :: es, s, n, h, hn => by
    have hlen : ((e :: es).length : Int) = (es.length : Int) + 1 := by
      simp only [List.length_cons]
      push_cast
      rfl
    have h1 := WellNumbered_Schedule h (by omega) e
    have h2 := WellNumbered_ScheduleAll es h1 (by push_cast; omega)
    rw [ScheduleAll_cons]
    have hidx : n + (e :: es).length = n + 1 + es.length := by
      simp only [List.length_cons]
      omega
    rw [hidx]
    exact h2

/-- Every engine reached from a well numbered engine while fewer than `2^63` calls of
`Schedule` have been made in all is well numbered. -/
theorem WellNumbered_of_Reach {run : Runner α σ} {s₀ : Simulation α} {a : Nat}
    (h₀ : WellNumbered s₀ a) {k : Nat} {s : Simulation α} (h : Reach run s₀ k s)
    (hk : ((a + k : Nat) : Int) < 2 ^ 63) : WellNumbered s (a + k) := by
  induction h with
  | start => exact h₀
  | schedule e _ ih =>
    push_cast at hk
    have := ih (by push_cast; omega)
    exact WellNumbered_Schedule this (by push_cast; omega) e
  | @step n s x m q es t _ hpop hres ih =>
    push_cast at hk
    obtain ⟨hid, hlt, hne⟩ := ih (by push_cast; omega)
    have hsub := Pop_sublist s.queue hpop
    have h1 : WellNumbered (({ s with queue := q } : Simulation α).advance m.Event.When)
        (a + n) := by
      refine ⟨by rw [advance_nextID]; exact hid, ?_, ?_⟩
      · intro y hy
        rw [advance_queue] at hy
        rw [advance_nextID]
        exact hlt y (hsub.subset hy)
      · rw [advance_queue]
        exact hne.sublist hsub
    have h2 := WellNumbered_ScheduleAll es h1 (by push_cast; omega)
    rw [hres, ← Nat.add_assoc]
    exact h2

/-- C17 (amended): in every engine reached from the empty engine (`nextID = 0`, empty queue) by
`Schedule` and `Step` calls, `Schedule` calls made from inside actions included, as long as
fewer than `2^63` calls of `Schedule` have been made in all, `nextID` equals the number of
`Schedule` calls made so far, every queued entry's `Order` is less than `nextID`, and no two
queued entries share an `Order`; and in every engine reached from there under the same bound
`nextID` is not less than it was. -/
theorem Reach_numbering (run : Runner α σ) (now : Int) (n : Nat) (s : Simulation α)
    (h : Reach run (Simulation.new now) n s) (hn : (n : Int) < 2 ^ 63) :
    s.nextID = n ∧ (∀ y ∈ s.queue, y.Order < s.nextID) ∧
    s.queue.Pairwise (fun a b => a.Order ≠ b.Order) ∧
    ∀ k s', Reach run s k s' → ((n + k : Nat) : Int) < 2 ^ 63 →
      s.nextID ≤ s'.nextID ∧ s'.nextID = ((n + k : Nat) : Int) := by
  have h₀ : WellNumbered (Simulation.new now : Simulation α) 0 :=
    ⟨rfl, (fun _ hy => nomatch hy), List.Pairwise.nil⟩
  have hs := WellNumbered_of_Reach h₀ h (by push_cast; omega)
  rw [Nat.zero_add] at hs
  refine ⟨hs.1, fun y hy => (hs.2.1 y hy).2, hs.2.2, ?_⟩
  intro k s' hk hbound
  have hs' := WellNumbered_of_Reach hs hk hbound
  refine ⟨?_, hs'.1⟩
  rw [hs.1, hs'.1]
  push_cast
  omega

/-- C17 (amended), on the example scenario, reached from `Simulation{}` by three `Schedule`
calls, and on the engine reached from it by a `Step`. -/
theorem Reach_numbering_witness :
    Reach logCode (Simulation.new 0) 3 scenario ∧ ((3 : Nat) : Int) < 2 ^ 63 ∧
    (scenario.nextID = (3 : Nat) ∧ (∀ y ∈ scenario.queue, y.Order < scenario.nextID) ∧
      scenario.queue.Pairwise (fun a b => a.Order ≠ b.Order) ∧
      ∀ k s', Reach logCode scenario k s' → ((3 + k : Nat) : Int) < 2 ^ 63 →
        scenario.nextID ≤ s'.nextID ∧ s'.nextID = ((3 + k : Nat) : Int)) ∧
    scenario = { Now := 0, nextID := 3, queue := [⟨0, ⟨10, 0⟩⟩, ⟨1, ⟨5, 1⟩⟩, ⟨2, ⟨5, 2⟩⟩] } ∧
    scenario.Step logCode [] =
      some (true, [1], { Now := 5, nextID := 3, queue := [⟨0, ⟨10, 0⟩⟩, ⟨2, ⟨5, 2⟩⟩] }) :=
  have hreach : Reach logCode (Simulation.new 0) 3 scenario :=
    Reach.schedule _ (Reach.schedule _ (Reach.schedule _ Reach.start))
  ⟨hreach, by decide, Reach_numbering logCode 0 3 scenario hreach (by decide), by decide,
    by decide⟩

/-- Rounds of one `Schedule` and one `Step` from `Simulation{}`: after `n` rounds, while
`nextID` has not wrapped, the queue is empty and `nextID` is `n`. -/
theorem Reach_rounds : ∀ (n : Nat), (n : Int) ≤ 2 ^ 63 - 1 →
    Reach logCode (Simulation.new 0 : Simulation Nat) n
      { Now := 0, nextID := (n : Int), queue := [] }
  | 0, _ => Reach.start
  | n + 1, hn => by
    push_cast at hn
    have ih := Reach_rounds n (by omega)
    have h1 := Reach.schedule ⟨0, 0⟩ ih
    have h2 := Reach.step [] ⟨(n : Int), ⟨0, 0⟩⟩ [] [] 0 h1 rfl rfl
    have hw : wrapInt ((n : Int) + 1) = (n : Int) + 1 := wrapInt_of_range (by omega) (by omega)
    have hstate : (logCode (0 : Nat) ([] : List Nat)
        (({ (({ Now := 0, nextID := (n : Int), queue := [] } : Simulation Nat).Schedule ⟨0, 0⟩)
          with queue := [] } : Simulation Nat).advance 0)).2 =
        { Now := 0, nextID := ((n + 1 : Nat) : Int), queue := [] } := by
      show ({ Now := 0, nextID := wrapInt ((n : Int) + 1), queue := [] } :
        Simulation Nat).advance 0 = _
      rw [hw]
      push_cast
      rfl
    rw [hstate] at h2
    exact h2

/-- C17 as stated fails once `nextID` has wrapped.  After `2^63 - 1` rounds of one `Schedule`
and one `Step` from `Simulation{}` and one more `Schedule`, `2^63` calls of `Schedule` in all,
the queue holds an entry with `Order = 2^63 - 1` and `nextID` is `-2^63`: the entry's `Order` is
not less than `nextID`, `nextID` is not the number of `Schedule` calls made, and it has gone
down from `2^63 - 1`. -/
theorem Reach_numbering_breaks_at_wrap :
    Reach logCode (Simulation.new 0 : Simulation Nat) (2 ^ 63 - 1)
      { Now := 0, nextID := 2 ^ 63 - 1, queue := [] } ∧
    Reach logCode (Simulation.new 0 : Simulation Nat) (2 ^ 63)
      { Now := 0, nextID := -(2 ^ 63), queue := [⟨2 ^ 63 - 1, ⟨0, 0⟩⟩] } ∧
    ¬ ((2 ^ 63 - 1 : Int) < -(2 ^ 63)) ∧ (-(2 ^ 63) : Int) ≠ ((2 ^ 63 : Nat) : Int) ∧
    (-(2 ^ 63) : Int) < 2 ^ 63 - 1 := by
  have hcast : ((2 ^ 63 - 1 : Nat) : Int) = 2 ^ 63 - 1 := by norm_num
  have h1 := Reach_rounds (2 ^ 63 - 1) (by rw [hcast])
  rw [hcast] at h1
  have h2 := Reach.schedule ⟨0, 0⟩ h1
  have hn : (2 ^ 63 - 1 + 1 : Nat) = 2 ^ 63 := by norm_num
  have hs : ({ Now := 0, nextID := 2 ^ 63 - 1, queue := [] } : Simulation Nat).Schedule ⟨0, 0⟩ =
      { Now := 0, nextID := -(2 ^ 63), queue := [⟨2 ^ 63 - 1, ⟨0, 0⟩⟩] } := by
    decide
  rw [hn, hs] at h2
  exact ⟨h1, h2, by norm_num, by norm_num, by norm_num⟩

end identifiers

end events
